import Mathlib

/-!
Verification development for the `SparseDispatcher` class of
`layers/Pathformer_EncDec.py` (PyITS / Pathformer).

The dispatcher is embedded shallowly:

* a torch tensor is modelled as its shape together with its row-major flat
  data, with exact rationals standing for floating-point scalars;
* the gate matrix is modelled as a list of rows of rationals;
* torch library calls (`nonzero`, `sort(0)`, `split`, `index_add`, `cat`,
  `einsum`, `squeeze`) are modelled by their documented semantics, each as a
  small definition next to its use;
* fallible tensor operations (those that raise shape errors in torch) return
  `Option`;
* `torch.exp` / `torch.log` are kept as abstract scalar maps `fexp, flog`
  (their exact floating values are outside the model); the numerical constant
  `np.finfo(float).eps` is representable exactly and is modelled exactly.
-/

set_option maxHeartbeats 1000000

/-- A torch tensor: its shape, and its row-major flat data over exact
rationals. -/
structure Tensor where
  shape : List ℕ
  data : List ℚ
deriving DecidableEq

instance : Inhabited Tensor := ⟨⟨[], []⟩⟩

/-- Number of scalars in one dim-0 slice (torch: `t[0].numel()`). -/
def Tensor.rowNumel (t : Tensor) : ℕ := t.shape.tail.prod

/-- The `i`-th dim-0 slice of a tensor, as flat data (torch: `t[i]`). -/
def Tensor.row (t : Tensor) (i : ℕ) : List ℚ := (t.data.drop (i * t.rowNumel)).take t.rowNumel

/-- Scalar at dim-0 index `i`, flat feature offset `p`. -/
def Tensor.entry (t : Tensor) (i p : ℕ) : ℚ := (t.row i).getD p 0

/-- Elementwise map over a tensor (torch: `t.exp()`, `t.log()`, masked fill). -/
def Tensor.emap (f : ℚ → ℚ) (t : Tensor) : Tensor := ⟨t.shape, t.data.map f⟩

/-- Well-formedness: the flat data has exactly as many scalars as the shape
prescribes. -/
def Tensor.wf (t : Tensor) : Prop := t.data.length = t.shape.prod

instance (t : Tensor) : Decidable t.wf := by unfold Tensor.wf; infer_instance

/-- torch advanced indexing `t[idx]` along dim 0 with an integer index
vector: gathers the selected dim-0 slices. -/
def Tensor.indexSelect0 (t : Tensor) (idx : List ℕ) : Tensor :=
  ⟨idx.length :: t.shape.tail, (idx.map fun i => t.row i).flatten⟩

/-- torch `t.squeeze(1)`: removes dimension 1 when its size is exactly 1,
otherwise returns the tensor unchanged.  (On a tensor of rank < 2 torch
raises a dimension-out-of-range error; callers below guard that case.) -/
def Tensor.squeeze1 (t : Tensor) : Tensor :=
  match t with
  | ⟨b :: 1 :: rest, d⟩ => ⟨b :: rest, d⟩
  | t => t

/-- Helper for `torch.split(sizes, dim=0)`: cuts the flat data into
consecutive chunks of `s * rn` scalars. -/
def splitSizesAux (tail : List ℕ) (rn : ℕ) : List ℕ → List ℚ → List Tensor
  | [], _ => []
  | s :: ss, d => ⟨s :: tail, d.take (s * rn)⟩ :: splitSizesAux tail rn ss (d.drop (s * rn))

/-- torch `torch.split(t, sizes, dim=0)`: one chunk per entry of `sizes`. -/
def Tensor.split0 (t : Tensor) (sizes : List ℕ) : List Tensor :=
  splitSizesAux t.shape.tail t.rowNumel sizes t.data

/-- Pointwise sum of two equally-long rows. -/
def addVec (a b : List ℚ) : List ℚ := List.zipWith (· + ·) a b

/-- torch `torch.cat(ts, 0)`: requires a non-empty list of tensors of equal
rank agreeing on every non-concatenated dimension (hence equal shape tails),
none of rank 0; concatenates the flat data. -/
def cat0 (ts : List Tensor) : Option Tensor :=
  match ts with
  | [] => none
  | t :: _ =>
    if ∀ u ∈ ts, u.shape ≠ [] ∧ u.shape.tail = t.shape.tail then
      some ⟨(ts.map fun u => u.shape.headI).sum :: t.shape.tail, (ts.map Tensor.data).flatten⟩
    else none

/-- torch `base.index_add(0, idx, src)` by its documented semantics:
`out[i] = base[i] + sum of src[j] over the j with idx[j] = i`, the sum taken
in increasing `j` order.  Requires `src` to match `base` on all dims but 0,
`idx` to have one entry per dim-0 slice of `src`, and all indices in range. -/
def Tensor.indexAdd0 (base : Tensor) (idx : List ℕ) (src : Tensor) : Option Tensor :=
  if src.shape.tail = base.shape.tail ∧ idx.length = src.shape.headI ∧ ∀ i ∈ idx, i < base.shape.headI then
    some ⟨base.shape, ((List.range base.shape.headI).map fun i =>
      (((List.range idx.length).filter fun j => decide (idx.getD j 0 = i)).map fun j =>
        src.row j).foldl addVec (base.row i)).flatten⟩
  else none

/-- torch `torch.einsum("ijkh,ik->ijkh", a, b)` for the shape at the single
call site: `a` of rank 4 and `b` of shape `[a.size(0), 1]`, whose size-1
second dimension broadcasts across the shared subscript `k`; each dim-0
slice of `a` is scaled by the matching scalar of `b`.  Any rank other than 4
for `a` is a subscript-arity error in torch, hence `none`. -/
def einsumScale (a b : Tensor) : Option Tensor :=
  if a.shape.length = 4 ∧ b.shape = [a.shape.headI, 1] then
    some ⟨a.shape, ((List.range a.shape.headI).map fun i =>
      (a.row i).map fun v => b.data.getD i 0 * v).flatten⟩
  else none

/-- Gate value `G[i][e]`, with 0 outside the matrix. -/
def gval (G : List (List ℚ)) (i e : ℕ) : ℚ := (G.getD i []).getD e 0

/-- torch `torch.nonzero(gates)`: the coordinates of the entries that are
not zero, in row-major order. -/
def nonzeroPairs (G : List (List ℚ)) : List (ℕ × ℕ) :=
  (List.range G.length).flatMap fun i =>
    (List.range (G.getD i []).length).filterMap fun e =>
      if gval G i e ≠ 0 then some (i, e) else none

/-- Stable sort of a list by a natural-number key: the elements are grouped
by ascending key, `k`-groups keeping their original relative order.  This
models the column of `Tensor.sort(0)` that the dispatcher uses (together
with the gather through its returned permutation), with the documented
"stable" refinement of torch's sort. -/
def sortByKey {α : Type} (key : α → ℕ) (l : List α) : List α :=
  (List.range ((l.map key).foldr max 0 + 1)).flatMap fun k => l.filter fun a => decide (key a = k)

/-- The dispatcher state, one field per `self._*` attribute assigned in
`SparseDispatcher.__init__`.  `expert_index` and `nonzero_gates` are column
vectors (`[n, 1]`) in the source; `expert_index` is kept flat here and
`nonzero_gates` keeps its `[n, 1]` tensor form (it is consumed as a tensor
by `combine` and `expert_to_gates`). -/
structure SparseDispatcher where
  num_experts : ℕ
  gates : List (List ℚ)
  batch_index : List ℕ
  expert_index : List ℕ
  part_sizes : List ℕ
  nonzero_gates : Tensor

/-- `SparseDispatcher.__init__`:

* `sorted_experts, index_sorted_experts = torch.nonzero(gates).sort(0)`;
  only column 1 of each result is used: the sorted expert ids, and the
  permutation that sorts the expert column.  Applying that permutation to
  the pairs is the stable sort of the pairs by expert id.
* `self._batch_index = torch.nonzero(gates)[index_sorted_experts[:, 1], 0]`:
  column 0 of the sorted pairs.
* `self._part_sizes = (gates > 0).sum(0).tolist()`: per-column counts of
  strictly positive entries; the column count of the `[B, E]` gates tensor
  is `num_experts` under the constructor's shape contract.
* `self._nonzero_gates = torch.gather(gates[self._batch_index], 1,
  self._expert_index)`: the `[n, 1]` tensor with `gates[batch_index[j],
  expert_index[j]]` at position `j`. -/
def SparseDispatcher.init (num_experts : ℕ) (gates : List (List ℚ)) : SparseDispatcher :=
  let sortedPairs := sortByKey (fun p => p.2) (nonzeroPairs gates)
  let expert_index := sortedPairs.map fun p => p.2
  let batch_index := sortedPairs.map fun p => p.1
  let part_sizes := (List.range num_experts).map fun e => gates.countP fun row => decide (0 < row.getD e 0)
  let nzg := List.zipWith (fun i e => gval gates i e) batch_index expert_index
  ⟨num_experts, gates, batch_index, expert_index, part_sizes, ⟨[nzg.length, 1], nzg⟩⟩

/-- `SparseDispatcher.dispatch`: `inp[self._batch_index].squeeze(1)` split by
`self._part_sizes` along dim 0.  `squeeze(1)` raises a dimension-out-of-range
error when the gathered tensor has rank < 2, hence `none` there. -/
def SparseDispatcher.dispatch (d : SparseDispatcher) (inp : Tensor) : Option (List Tensor) :=
  let inp_exp := inp.indexSelect0 d.batch_index
  if inp_exp.shape.length < 2 then none
  else some (inp_exp.squeeze1.split0 d.part_sizes)

/-- The exact value of `np.finfo(float).eps`: the machine epsilon of IEEE
float64, `2 ^ (-52)` (written as an explicit numeral so that concrete runs
evaluate). -/
def npFinfoFloatEps : ℚ := 1 / 4503599627370496

/-- The smallest strictly positive IEEE float64 (subnormal), `2 ^ (-1074)`. -/
def float64SmallestPos : ℚ := 1 / 2 ^ 1074

/-- The smallest strictly positive normal IEEE float64, `2 ^ (-1022)`. -/
def float64SmallestPosNormal : ℚ := 1 / 2 ^ 1022

/-- The smallest strictly positive IEEE float32 (subnormal), `2 ^ (-149)`:
float32 is the dtype of the accumulator allocated by `torch.zeros`. -/
def float32SmallestPos : ℚ := 1 / 2 ^ 149

/-- The smallest strictly positive normal IEEE float32, `2 ^ (-126)`. -/
def float32SmallestPosNormal : ℚ := 1 / 2 ^ 126

/-- `SparseDispatcher.combine`, line by line:

* `stitched = torch.cat(expert_out, 0).exp()`;
* `stitched = torch.einsum("ijkh,ik -> ijkh", stitched, self._nonzero_gates)`
  when `multiply_by_gates`;
* `zeros = torch.zeros(self._gates.size(0), expert_out[-1].size(1),
  expert_out[-1].size(2), expert_out[-1].size(3), ...)`; the three `size`
  calls raise when the last expert output has rank < 4;
* `combined = zeros.index_add(0, self._batch_index, stitched.float())`
  (the `float()` cast is the identity in this exact model);
* `combined[combined == 0] = np.finfo(float).eps`;
* `return combined.log()`.

`fexp` and `flog` are the abstract elementwise `exp` and `log`. -/
def SparseDispatcher.combine (fexp flog : ℚ → ℚ) (d : SparseDispatcher)
    (expert_out : List Tensor) (multiply_by_gates : Bool) : Option Tensor :=
  match cat0 expert_out with
  | none => none
  | some catted =>
    let expd := catted.emap fexp
    match (if multiply_by_gates then einsumScale expd d.nonzero_gates else some expd) with
    | none => none
    | some stitched =>
      match expert_out.getLast? with
      | none => none
      | some lastT =>
        if lastT.shape.length < 4 then none
        else
          let zshape := [d.gates.length, lastT.shape.getD 1 0, lastT.shape.getD 2 0, lastT.shape.getD 3 0]
          let zeros : Tensor := ⟨zshape, List.replicate zshape.prod 0⟩
          match zeros.indexAdd0 d.batch_index stitched with
          | none => none
          | some combined =>
            some ((combined.emap fun v => if v = 0 then npFinfoFloatEps else v).emap flog)

/-- `SparseDispatcher.expert_to_gates`: `torch.split(self._nonzero_gates,
self._part_sizes, dim=0)`. -/
def SparseDispatcher.expert_to_gates (d : SparseDispatcher) : List Tensor :=
  d.nonzero_gates.split0 d.part_sizes

/-- One public dispatcher method invocation (for the frame-effect claim). -/
inductive DispatcherCall where
  | dispatchCall (inp : Tensor)
  | combineCall (fexp flog : ℚ → ℚ) (expert_out : List Tensor) (m : Bool)
  | gatesCall

/-- `dispatch` in state-passing form: the method body assigns no `self`
field, so the post-state is the pre-state. -/
def SparseDispatcher.dispatchS (d : SparseDispatcher) (inp : Tensor) :
    Option (List Tensor) × SparseDispatcher :=
  (d.dispatch inp, d)

/-- `combine` in state-passing form: the method body assigns no `self`
field (the masked in-place fill mutates only the local `combined`), so the
post-state is the pre-state. -/
def SparseDispatcher.combineS (fexp flog : ℚ → ℚ) (d : SparseDispatcher)
    (expert_out : List Tensor) (m : Bool) : Option Tensor × SparseDispatcher :=
  (d.combine fexp flog expert_out m, d)

/-- `expert_to_gates` in state-passing form: the method body assigns no
`self` field, so the post-state is the pre-state. -/
def SparseDispatcher.expertToGatesS (d : SparseDispatcher) :
    List Tensor × SparseDispatcher :=
  (d.expert_to_gates, d)

/-- Post-state of one public method call. -/
def SparseDispatcher.step (d : SparseDispatcher) : DispatcherCall → SparseDispatcher
  | .dispatchCall inp => (d.dispatchS inp).2
  | .combineCall fexp flog outs m => (SparseDispatcher.combineS fexp flog d outs m).2
  | .gatesCall => d.expertToGatesS.2

/-- State after an arbitrary sequence of public method calls. -/
def SparseDispatcher.runCalls (d : SparseDispatcher) (cs : List DispatcherCall) : SparseDispatcher :=
  cs.foldl SparseDispatcher.step d

/-! ### Specification-side vocabulary

The claims speak of the samples routed to an expert, the experts of a
sample, positions inside a chunk, and the mixture value; these are written
directly from the claims' words and compared with the code's output. -/

/-- The samples routed to expert `e`: the `i` with `G[i][e] > 0`, in
ascending order. -/
def routedTo (G : List (List ℚ)) (e : ℕ) : List ℕ :=
  (List.range G.length).filter fun i => decide (0 < gval G i e)

/-- The experts a sample `i` is routed to: the `e < E` with `G[i][e] > 0`,
in ascending order. -/
def expertsOf (G : List (List ℚ)) (E i : ℕ) : List ℕ :=
  (List.range E).filter fun e => decide (0 < gval G i e)

/-- The position of sample `i` inside expert `e`'s dispatched chunk: the
number of routed samples before it. -/
def chunkPos (G : List (List ℚ)) (e i : ℕ) : ℕ :=
  ((List.range i).filter fun i2 => decide (0 < gval G i2 e)).length

/-- The claimed combined value for sample `i` at feature offset `p`:
`sum over e in S_i of G[i][e] * fexp(out_e_i[p])`, `out_e_i` being expert
`e`'s output row at sample `i`'s chunk position. -/
def mixSum (fexp : ℚ → ℚ) (G : List (List ℚ)) (E : ℕ) (outs : List Tensor) (i p : ℕ) : ℚ :=
  ((expertsOf G E i).map fun e =>
    gval G i e * fexp ((outs.getD e default).entry (chunkPos G e i) p)).sum

/-- The gates matrix has `B` rows of length `E` each. -/
def rectangular (E : ℕ) (G : List (List ℚ)) : Prop := ∀ row ∈ G, row.length = E

instance (E : ℕ) (G : List (List ℚ)) : Decidable (rectangular E G) := by
  unfold rectangular; infer_instance

/-- All gate entries are non-negative. -/
def nonnegGates (G : List (List ℚ)) : Prop := ∀ row ∈ G, ∀ x ∈ row, 0 ≤ x

instance (G : List (List ℚ)) : Decidable (nonnegGates G) := by
  unfold nonnegGates; infer_instance

/-- A well-shaped expert-output sequence: one rank-4 tensor per expert,
expert `e`'s with leading dimension the size of its dispatched chunk and
shared feature dimensions `s1 × s2 × s3`. -/
def wellShaped (G : List (List ℚ)) (E s1 s2 s3 : ℕ) (outs : List Tensor) : Prop :=
  outs.length = E ∧ ∀ e < E,
    (outs.getD e default).shape = [(routedTo G e).length, s1, s2, s3] ∧ (outs.getD e default).wf

instance (G : List (List ℚ)) (E s1 s2 s3 : ℕ) (outs : List Tensor) :
    Decidable (wellShaped G E s1 s2 s3 outs) := by
  unfold wellShaped; infer_instance

/-- Total number of strictly positive entries of `G`. -/
def posCount (G : List (List ℚ)) : ℕ :=
  (G.map fun row => row.countP fun x => decide (0 < x)).sum

/-- The flat assignment stream the spec describes: all `(sample, expert)`
assignments grouped by ascending expert id, ascending sample id inside a
group. -/
def flatAssign (G : List (List ℚ)) (E : ℕ) : List (ℕ × ℕ) :=
  (List.range E).flatMap fun e => (routedTo G e).map fun i => (i, e)

/-- Feature dimensions after `squeeze(1)`: a leading feature dimension of
size exactly 1 is removed, anything else is untouched. -/
def squeezeTail (fs : List ℕ) : List ℕ :=
  match fs with
  | 1 :: rest => rest
  | _ => fs

/-- The gate matrix of the spec's concrete scenario: `B = 4`, `E = 2`,
`G = [[1,0],[0,1],[1,1],[0,0]]`. -/
def gatesEx : List (List ℚ) := [[1, 0], [0, 1], [1, 1], [0, 0]]

/-- Concrete expert outputs for the scenario: two rank-4 tensors of shape
`[2, 1, 1, 1]`. -/
def outsEx : List Tensor := [⟨[2, 1, 1, 1], [5, 6]⟩, ⟨[2, 1, 1, 1], [7, 8]⟩]

/-- The dispatched row of expert `q.2` that carries sample `q.1` (proof
vocabulary for the combine analysis). -/
def asgRow (G : List (List ℚ)) (outs : List Tensor) (q : ℕ × ℕ) : List ℚ :=
  (outs.getD q.2 default).row (chunkPos G q.2 q.1)

/-- The exponentiated, gate-scaled row of one assignment. -/
def scaledRow (fexp : ℚ → ℚ) (G : List (List ℚ)) (outs : List Tensor) (q : ℕ × ℕ) : List ℚ :=
  (asgRow G outs q).map fun v => gval G q.1 q.2 * fexp v

/-- The accumulator row of sample `i` after the scatter-accumulate step. -/
def combRowL (fexp : ℚ → ℚ) (G : List (List ℚ)) (E : ℕ) (outs : List Tensor) (rn i : ℕ) : List ℚ :=
  ((expertsOf G E i).map fun e => scaledRow fexp G outs (i, e)).foldl addVec (List.replicate rn 0)

/-- A gate matrix with a zero-sample expert: expert 1 receives no samples
(and sample 1 has no assignments). -/
def gatesZ : List (List ℚ) := [[1, 0], [0, 0]]

/-- Expert outputs for `gatesZ`: expert 1's chunk is empty. -/
def outsZ : List Tensor := [⟨[1, 1, 1, 1], [5]⟩, ⟨[0, 1, 1, 1], []⟩]

/-! ### Generic list lemmas -/

theorem getD_map_of_lt {α β : Type} (f : α → β) (l : List α) (j : ℕ) (hj : j < l.length)
    (d : α) (d' : β) : (l.map f).getD j d' = f (l.getD j d) := by
  rw [List.getD_eq_getElem?_getD, List.getD_eq_getElem?_getD, List.getElem?_map,
    List.getElem?_eq_getElem hj]
  simp

theorem getD_range_of_lt {n e : ℕ} (h : e < n) : (List.range n).getD e 0 = e := by
  rw [List.getD_eq_getElem?_getD, List.getElem?_range h]
  rfl

theorem mem_getD_of_lt {α : Type} (l : List α) (i : ℕ) (h : i < l.length) (d : α) :
    l.getD i d ∈ l := by
  rw [List.getD_eq_getElem?_getD, List.getElem?_eq_getElem h]
  exact List.getElem_mem h

theorem range_filter_map_getD {α β : Type} (l : List α) (p : α → Bool) (F : α → β) (d : α) :
    (((List.range l.length).filter fun j => p (l.getD j d)).map fun j => F (l.getD j d)) =
      (l.filter p).map F := by
  induction l with
  | nil => rfl
  | cons x xs ih =>
    rw [List.length_cons, List.range_succ_eq_map, List.filter_cons]
    by_cases hx : p x
    · simp only [List.getD_cons_zero, hx, if_pos, List.map_cons, List.filter_map,
        List.map_map, List.filter_cons_of_pos]
      refine congrArg (F x :: ·) ?_
      simpa [Function.comp_def, List.filter_map, List.map_map] using ih
    · simp only [List.getD_cons_zero, hx, List.map_cons, List.filter_map,
        List.map_map, List.filter_cons_of_neg, Bool.false_eq_true, not_false_iff]
      simpa [Function.comp_def, List.filter_map, List.map_map] using ih

theorem range_map_getD {α β : Type} (l : List α) (F : α → β) (d : α) :
    ((List.range l.length).map fun j => F (l.getD j d)) = l.map F := by
  have h := range_filter_map_getD l (fun _ => true) F d
  simpa using h

theorem countP_range_getD {α : Type} (l : List α) (p : α → Bool) (d : α) :
    (List.range l.length).countP (fun j => p (l.getD j d)) = l.countP p := by
  have h := congrArg List.length (range_filter_map_getD l p id d)
  simpa [List.countP_eq_length_filter] using h

theorem flatMap_if_singleton {α β : Type} (l : List α) (p : α → Bool) (f : α → β) :
    (l.flatMap fun a => if p a then [f a] else []) = (l.filter p).map f := by
  induction l with
  | nil => rfl
  | cons x xs ih =>
    rw [List.flatMap_cons, List.filter_cons]
    by_cases h : p x <;> simp [h, ih]

theorem filterMap_if_singleton {α β : Type} (l : List α) (p : α → Bool) (f : α → β) :
    (l.filterMap fun a => if p a then some (f a) else none) = (l.filter p).map f := by
  induction l with
  | nil => rfl
  | cons x xs ih =>
    rw [List.filterMap_cons, List.filter_cons]
    by_cases h : p x <;> simp [h, ih]

theorem sum_map_ite01 {α : Type} (l : List α) (p : α → Bool) :
    (l.map fun a => if p a then (1 : ℕ) else 0).sum = l.countP p := by
  induction l with
  | nil => rfl
  | cons x xs ih =>
    rw [List.map_cons, List.sum_cons, List.countP_cons, ih]
    by_cases h : p x <;> simp [h, Nat.add_comm]

theorem flatten_flatMap {α : Type} (l : List α) (f : α → List (List ℚ)) :
    (l.flatMap f).flatten = ((l.map fun a => (f a).flatten)).flatten := by
  induction l with
  | nil => rfl
  | cons x xs ih => simp [List.flatMap_cons, ih]

theorem le_foldr_max (l : List ℕ) : ∀ a ∈ l, a ≤ l.foldr max 0 := by
  induction l with
  | nil => intro a ha; cases ha
  | cons x xs ih =>
    intro a ha
    rcases List.mem_cons.mp ha with h | h
    · simp only [h, List.foldr_cons]
      exact Nat.le_max_left _ _
    · exact le_trans (ih a h) (by simp only [List.foldr_cons]; exact Nat.le_max_right x _)

theorem flatMap_groups_drop {α : Type} (key : α → ℕ) (l : List α) (M N : ℕ)
    (hMN : M ≤ N) (hkeys : ∀ a ∈ l, key a < M) :
    ((List.range N).flatMap fun k => l.filter fun a => decide (key a = k)) =
      (List.range M).flatMap fun k => l.filter fun a => decide (key a = k) := by
  induction N, hMN using Nat.le_induction with
  | base => rfl
  | succ n hn ih =>
    rw [List.range_succ, List.flatMap_append, ih]
    have hnil : (l.filter fun a => decide (key a = n)) = [] := by
      refine List.filter_eq_nil_iff.mpr ?_
      intro a ha
      simp only [decide_eq_true_eq]
      exact Nat.ne_of_lt (lt_of_lt_of_le (hkeys a ha) hn)
    simp [hnil]

theorem sortByKey_eq_groups {α : Type} (key : α → ℕ) (l : List α) (E : ℕ)
    (hkeys : ∀ a ∈ l, key a < E) :
    sortByKey key l = (List.range E).flatMap fun k => l.filter fun a => decide (key a = k) := by
  unfold sortByKey
  set M := (l.map key).foldr max 0 + 1 with hM
  have hkM : ∀ a ∈ l, key a < M := by
    intro a ha
    exact Nat.lt_succ_of_le (le_foldr_max _ _ (List.mem_map_of_mem key ha))
  have h1 := flatMap_groups_drop key l M (max M E) (Nat.le_max_left _ _) hkM
  have h2 := flatMap_groups_drop key l E (max M E) (Nat.le_max_right _ _)
    (fun a ha => lt_of_lt_of_le (hkeys a ha) (le_refl E))
  rw [← h1, h2]

theorem addVec_length {a b : List ℚ} (h : b.length = a.length) :
    (addVec a b).length = a.length := by
  simp [addVec, h]

theorem addVec_getD {a b : List ℚ} (h : b.length = a.length) (p : ℕ) :
    (addVec a b).getD p 0 = a.getD p 0 + b.getD p 0 := by
  induction a generalizing b p with
  | nil =>
    have : b = [] := List.length_eq_zero.mp h
    simp [this, addVec]
  | cons x xs ih =>
    cases b with
    | nil => simp at h
    | cons y ys =>
      cases p with
      | zero => simp [addVec]
      | succ q =>
        simp only [addVec, List.zipWith_cons_cons, List.getD_cons_succ]
        exact ih (by simpa using h) q

theorem foldl_addVec_length (vs : List (List ℚ)) (init : List ℚ)
    (h : ∀ v ∈ vs, v.length = init.length) : (vs.foldl addVec init).length = init.length := by
  induction vs generalizing init with
  | nil => rfl
  | cons v vs ih =>
    rw [List.foldl_cons]
    have hv : (addVec init v).length = init.length := addVec_length (h v (List.mem_cons_self v vs))
    rw [ih (addVec init v) (fun u hu => by rw [hv]; exact h u (List.mem_cons_of_mem v hu)), hv]

theorem foldl_addVec_getD (vs : List (List ℚ)) (init : List ℚ) (p : ℕ)
    (h : ∀ v ∈ vs, v.length = init.length) :
    (vs.foldl addVec init).getD p 0 = init.getD p 0 + (vs.map fun v => v.getD p 0).sum := by
  induction vs generalizing init with
  | nil => simp
  | cons v vs ih =>
    rw [List.foldl_cons, List.map_cons, List.sum_cons]
    have hv : (addVec init v).length = init.length := addVec_length (h v (List.mem_cons_self v vs))
    rw [ih (addVec init v) (fun u hu => by rw [hv]; exact h u (List.mem_cons_of_mem v hu)),
      addVec_getD (h v (List.mem_cons_self v vs)) p]
    ring

theorem flatten_drop_take (rn : ℕ) (ls : List (List ℚ)) (j : ℕ)
    (hlen : ∀ x ∈ ls, x.length = rn) (hj : j < ls.length) :
    (ls.flatten.drop (j * rn)).take rn = ls.getD j [] := by
  induction ls generalizing j with
  | nil => cases hj
  | cons x xs ih =>
    have hx : x.length = rn := hlen x (List.mem_cons_self x xs)
    cases j with
    | zero =>
      simp only [Nat.zero_mul, List.drop_zero, List.flatten_cons, List.getD_cons_zero]
      rw [← hx, List.take_left]
    | succ k =>
      have hdrop : ((x :: xs).flatten).drop ((k + 1) * rn) = (xs.flatten).drop (k * rn) := by
        rw [List.flatten_cons, Nat.succ_mul, Nat.add_comm (k * rn) rn, ← List.drop_drop,
          ← hx, List.drop_left]
      rw [hdrop, List.getD_cons_succ]
      exact ih k (fun u hu => hlen u (List.mem_cons_of_mem x hu)) (Nat.lt_of_succ_lt_succ hj)

theorem rows_flatten_eq (rn : ℕ) (cnt : ℕ) (d : List ℚ) (h : d.length = cnt * rn) :
    ((List.range cnt).map fun j => (d.drop (j * rn)).take rn).flatten = d := by
  induction cnt generalizing d with
  | zero =>
    have : d = [] := List.length_eq_zero.mp (by simpa using h)
    simp [this]
  | succ n ih =>
    rw [List.range_succ_eq_map, List.map_cons, List.map_map, List.flatten_cons]
    have hmap : ((List.range n).map fun j =>
        ((d.drop ((Nat.succ j) * rn)).take rn)) =
        (List.range n).map fun j => (((d.drop rn).drop (j * rn)).take rn) := by
      refine List.map_congr_left ?_
      intro j _
      rw [List.drop_drop, Nat.succ_mul, Nat.add_comm (j * rn) rn]
    have hrest : (d.drop rn).length = n * rn := by
      rw [List.length_drop, h, Nat.succ_mul]
      omega
    calc (d.drop (0 * rn)).take rn ++
          ((List.range n).map ((fun j => (d.drop (j * rn)).take rn) ∘ Nat.succ)).flatten
        = d.take rn ++ ((List.range n).map fun j => (((d.drop rn).drop (j * rn)).take rn)).flatten := by
          rw [Nat.zero_mul, List.drop_zero]
          refine congrArg _ (congrArg List.flatten ?_)
          simpa [Function.comp_def] using hmap
      _ = d.take rn ++ d.drop rn := by rw [ih (d.drop rn) hrest]
      _ = d := List.take_append_drop rn d

theorem splitSizesAux_flatten (tail : List ℕ) (rn : ℕ) (sizes : List ℕ) (segs : List (List ℚ))
    (h : List.Forall₂ (fun s seg => (seg : List ℚ).length = s * rn) sizes segs) :
    splitSizesAux tail rn sizes segs.flatten =
      List.zipWith (fun s seg => Tensor.mk (s :: tail) seg) sizes segs := by
  induction h with
  | nil => rfl
  | @cons s seg ss rest hs hrest ih =>
    simp only [splitSizesAux, List.flatten_cons, List.zipWith_cons_cons]
    rw [← hs, List.take_left, List.drop_left, ih]

/-! ### Structure of the constructed dispatcher -/

theorem flatMap_congr {α β : Type} {l : List α} {f g : α → List β}
    (h : ∀ a ∈ l, f a = g a) : l.flatMap f = l.flatMap g := by
  induction l with
  | nil => rfl
  | cons x xs ih =>
    rw [List.flatMap_cons, List.flatMap_cons, h x (List.mem_cons_self x xs),
      ih (fun a ha => h a (List.mem_cons_of_mem x ha))]

theorem zipWith_map_same {α β γ δ : Type} (f : β → γ → δ) (g : α → β) (h : α → γ) (l : List α) :
    List.zipWith f (l.map g) (l.map h) = l.map fun a => f (g a) (h a) := by
  induction l with
  | nil => rfl
  | cons x xs ih => simp [ih]

theorem gval_nonneg {G : List (List ℚ)} (h : nonnegGates G) (i e : ℕ) : 0 ≤ gval G i e := by
  unfold gval
  by_cases hi : i < G.length
  · by_cases he : e < (G.getD i []).length
    · exact h _ (mem_getD_of_lt G i hi []) _ (mem_getD_of_lt _ e he 0)
    · rw [List.getD_eq_default _ _ (Nat.le_of_not_lt he)]
  · rw [List.getD_eq_default _ _ (Nat.le_of_not_lt hi)]
    simp

theorem gval_ne_iff {G : List (List ℚ)} (h : nonnegGates G) (i e : ℕ) :
    gval G i e ≠ 0 ↔ 0 < gval G i e := by
  constructor
  · intro hne
    exact lt_of_le_of_ne (gval_nonneg h i e) (Ne.symm hne)
  · exact ne_of_gt

theorem nonzeroPairs_mem {G : List (List ℚ)} {q : ℕ × ℕ} (hq : q ∈ nonzeroPairs G) :
    q.1 < G.length ∧ q.2 < (G.getD q.1 []).length ∧ gval G q.1 q.2 ≠ 0 := by
  unfold nonzeroPairs at hq
  rw [List.mem_flatMap] at hq
  obtain ⟨i, hi, hinner⟩ := hq
  rw [List.mem_filterMap] at hinner
  obtain ⟨e, he, heq⟩ := hinner
  by_cases hg : gval G i e ≠ 0
  · rw [if_pos hg] at heq
    obtain rfl := Option.some.inj heq
    exact ⟨List.mem_range.mp hi, List.mem_range.mp he, hg⟩
  · rw [if_neg hg] at heq
    cases heq

theorem filterMap_single_filter (G : List (List ℚ)) (i e k : ℕ) :
    (([k].filterMap fun e2 => if gval G i e2 ≠ 0 then some (i, e2) else none).filter
      fun q => decide (q.2 = e)) = if k = e ∧ gval G i k ≠ 0 then [(i, k)] else [] := by
  by_cases h2 : k = e
  · subst h2
    by_cases h1 : gval G i k ≠ 0 <;> simp [List.filterMap_cons, h1]
  · by_cases h1 : gval G i k ≠ 0 <;> simp [List.filterMap_cons, h1, h2]

theorem nonzeroPairs_inner_filter (G : List (List ℚ)) (i e m : ℕ) :
    (((List.range m).filterMap fun e2 => if gval G i e2 ≠ 0 then some (i, e2) else none).filter
      fun q => decide (q.2 = e)) =
      if e < m ∧ gval G i e ≠ 0 then [(i, e)] else [] := by
  induction m with
  | zero => simp
  | succ k ih =>
    rw [List.range_succ, List.filterMap_append, List.filter_append, ih,
      filterMap_single_filter]
    rcases Nat.lt_trichotomy e k with hek | hek | hek
    · have h2 : ¬ k = e := by omega
      have h3 : e < k + 1 := by omega
      simp [hek, h2, h3]
    · subst hek
      have h2 : ¬ e < e := lt_irrefl e
      simp [h2, Nat.lt_succ_self]
    · have h2 : ¬ e < k := by omega
      have h3 : ¬ k = e := by omega
      have h4 : ¬ e < k + 1 := by omega
      simp [h2, h3, h4]

theorem nonzeroPairs_filter_group (G : List (List ℚ)) (E e : ℕ)
    (hrect : rectangular E G) (hnn : nonnegGates G) (he : e < E) :
    ((nonzeroPairs G).filter fun q => decide (q.2 = e)) =
      (routedTo G e).map fun i => (i, e) := by
  unfold nonzeroPairs
  rw [List.filter_flatMap]
  have hcong : ∀ i ∈ List.range G.length,
      ((((List.range (G.getD i []).length).filterMap fun e2 =>
        if gval G i e2 ≠ 0 then some (i, e2) else none).filter fun q => decide (q.2 = e))) =
      if decide (0 < gval G i e) then [(i, e)] else [] := by
    intro i hi
    rw [nonzeroPairs_inner_filter]
    have hlen : (G.getD i []).length = E :=
      hrect _ (mem_getD_of_lt G i (List.mem_range.mp hi) [])
    rw [hlen]
    by_cases hg : gval G i e ≠ 0
    · have hp : 0 < gval G i e := (gval_ne_iff hnn i e).mp hg
      simp [he, hg, hp]
    · have h0 : gval G i e = 0 := not_not.mp hg
      simp [h0]
  rw [flatMap_congr hcong, flatMap_if_singleton]
  rfl

theorem sortedPairs_eq (G : List (List ℚ)) (E : ℕ) (hrect : rectangular E G)
    (hnn : nonnegGates G) :
    sortByKey (fun q : ℕ × ℕ => q.2) (nonzeroPairs G) = flatAssign G E := by
  have hkeys : ∀ q ∈ nonzeroPairs G, q.2 < E := by
    intro q hq
    obtain ⟨h1, h2, _⟩ := nonzeroPairs_mem hq
    have := hrect _ (mem_getD_of_lt G q.1 h1 [])
    omega
  rw [sortByKey_eq_groups _ _ E hkeys]
  unfold flatAssign
  exact flatMap_congr fun e he =>
    nonzeroPairs_filter_group G E e hrect hnn (List.mem_range.mp he)

theorem init_batch_index (G : List (List ℚ)) (E : ℕ) (hrect : rectangular E G)
    (hnn : nonnegGates G) :
    (SparseDispatcher.init E G).batch_index = (flatAssign G E).map fun q => q.1 := by
  simp only [SparseDispatcher.init]
  rw [sortedPairs_eq G E hrect hnn]

theorem init_expert_index (G : List (List ℚ)) (E : ℕ) (hrect : rectangular E G)
    (hnn : nonnegGates G) :
    (SparseDispatcher.init E G).expert_index = (flatAssign G E).map fun q => q.2 := by
  simp only [SparseDispatcher.init]
  rw [sortedPairs_eq G E hrect hnn]

theorem init_gates (G : List (List ℚ)) (E : ℕ) : (SparseDispatcher.init E G).gates = G := rfl

theorem init_num_experts (G : List (List ℚ)) (E : ℕ) :
    (SparseDispatcher.init E G).num_experts = E := rfl

theorem init_nonzero_gates (G : List (List ℚ)) (E : ℕ) (hrect : rectangular E G)
    (hnn : nonnegGates G) :
    (SparseDispatcher.init E G).nonzero_gates =
      ⟨[(flatAssign G E).length, 1], (flatAssign G E).map fun q => gval G q.1 q.2⟩ := by
  simp only [SparseDispatcher.init]
  rw [sortedPairs_eq G E hrect hnn, zipWith_map_same]
  simp

theorem init_part_sizes (G : List (List ℚ)) (E : ℕ) :
    (SparseDispatcher.init E G).part_sizes =
      (List.range E).map fun e => (routedTo G e).length := by
  simp only [SparseDispatcher.init]
  refine List.map_congr_left ?_
  intro e _
  rw [routedTo, ← List.countP_eq_length_filter]
  have h := countP_range_getD G (fun row => decide (0 < row.getD e 0)) []
  simpa [gval] using h.symm

theorem flatAssign_map_fst (G : List (List ℚ)) (E : ℕ) :
    ((flatAssign G E).map fun q => q.1) = (List.range E).flatMap fun e => routedTo G e := by
  unfold flatAssign
  rw [List.map_flatMap]
  refine flatMap_congr fun e _ => ?_
  rw [List.map_map]
  have : ((fun q : ℕ × ℕ => q.1) ∘ fun i => (i, e)) = id := rfl
  rw [this, List.map_id]

theorem mem_routedTo {G : List (List ℚ)} {e i : ℕ} :
    i ∈ routedTo G e ↔ i < G.length ∧ 0 < gval G i e := by
  simp [routedTo, List.mem_filter, List.mem_range]

theorem flatAssign_mem {G : List (List ℚ)} {E : ℕ} {q : ℕ × ℕ} (hq : q ∈ flatAssign G E) :
    q.1 < G.length ∧ q.2 < E ∧ 0 < gval G q.1 q.2 := by
  unfold flatAssign at hq
  rw [List.mem_flatMap] at hq
  obtain ⟨e, he, hmem⟩ := hq
  rw [List.mem_map] at hmem
  obtain ⟨i, hi, rfl⟩ := hmem
  obtain ⟨h1, h2⟩ := mem_routedTo.mp hi
  exact ⟨h1, List.mem_range.mp he, h2⟩

theorem flatAssign_length (G : List (List ℚ)) (E : ℕ) :
    (flatAssign G E).length = ((List.range E).map fun e => (routedTo G e).length).sum := by
  unfold flatAssign
  rw [List.length_flatMap]
  refine congrArg List.sum (List.map_congr_left ?_)
  intro e _
  exact List.length_map _ _

theorem filter_range_map_pos_len (B : ℕ) (q : ℕ → Bool) :
    ((List.range B).filter q).map (fun i => ((List.range i).filter q).length) =
      List.range ((List.range B).filter q).length := by
  induction B with
  | zero => rfl
  | succ n ih =>
    rw [List.range_succ, List.filter_append, List.map_append, ih]
    by_cases h : q n
    · simp [h, List.range_succ]
    · simp [h]

theorem routedTo_map_chunkPos (G : List (List ℚ)) (e : ℕ) :
    (routedTo G e).map (fun i => chunkPos G e i) = List.range (routedTo G e).length := by
  unfold routedTo chunkPos
  exact filter_range_map_pos_len G.length _

theorem chunkPos_lt_of_mem {G : List (List ℚ)} {e i : ℕ} (h : i ∈ routedTo G e) :
    chunkPos G e i < (routedTo G e).length := by
  have hm : chunkPos G e i ∈ (routedTo G e).map (fun i => chunkPos G e i) :=
    List.mem_map_of_mem _ h
  rw [routedTo_map_chunkPos] at hm
  exact List.mem_range.mp hm

/-! ### Dispatch -/

theorem squeeze1_cons (n : ℕ) (fs : List ℕ) (d : List ℚ) :
    Tensor.squeeze1 ⟨n :: fs, d⟩ = ⟨n :: squeezeTail fs, d⟩ := by
  rcases fs with _ | ⟨f, rest⟩
  · rfl
  · match f with
    | 0 => rfl
    | 1 => rfl
    | (k + 2) => rfl

theorem squeezeTail_prod (fs : List ℕ) : (squeezeTail fs).prod = fs.prod := by
  rcases fs with _ | ⟨f, rest⟩
  · rfl
  · match f with
    | 0 => rfl
    | 1 => simp [squeezeTail]
    | (k + 2) => rfl

theorem row_length {t : Tensor} {B : ℕ} {fs : List ℕ} (hshape : t.shape = B :: fs)
    (hwf : t.wf) {i : ℕ} (hi : i < B) : (t.row i).length = fs.prod := by
  have hrn : t.rowNumel = fs.prod := by rw [Tensor.rowNumel, hshape]; rfl
  unfold Tensor.row
  rw [List.length_take, List.length_drop, hwf, hshape, List.prod_cons, hrn]
  have hsub : B * fs.prod - i * fs.prod = (B - i) * fs.prod := (Nat.sub_mul B i fs.prod).symm
  rw [hsub]
  have hle : fs.prod ≤ (B - i) * fs.prod := by
    have h1 : 1 ≤ B - i := by omega
    calc fs.prod = 1 * fs.prod := (Nat.one_mul _).symm
      _ ≤ (B - i) * fs.prod := Nat.mul_le_mul_right _ h1
  omega

theorem flatten_length_uniform (rn : ℕ) (ls : List (List ℚ)) (h : ∀ x ∈ ls, x.length = rn) :
    ls.flatten.length = ls.length * rn := by
  induction ls with
  | nil => simp
  | cons x xs ih =>
    rw [List.flatten_cons, List.length_append, h x (List.mem_cons_self x xs),
      ih (fun u hu => h u (List.mem_cons_of_mem x hu)), List.length_cons, Nat.succ_mul]
    omega

theorem forall₂_of_map {α β γ : Type} {l : List α} {f : α → β} {g : α → γ}
    {P : β → γ → Prop} (h : ∀ a ∈ l, P (f a) (g a)) :
    List.Forall₂ P (l.map f) (l.map g) := by
  induction l with
  | nil => exact List.Forall₂.nil
  | cons x xs ih =>
    exact List.Forall₂.cons (h x (List.mem_cons_self x xs))
      (ih fun a ha => h a (List.mem_cons_of_mem x ha))

theorem dispatch_spec (G : List (List ℚ)) (E : ℕ) (hrect : rectangular E G)
    (hnn : nonnegGates G) (x : Tensor) (fs : List ℕ)
    (hshape : x.shape = G.length :: fs) (hwf : x.wf) (hfs : fs ≠ []) :
    (SparseDispatcher.init E G).dispatch x =
      some ((List.range E).map fun e =>
        ⟨(routedTo G e).length :: squeezeTail fs,
          ((routedTo G e).map x.row).flatten⟩) := by
  have hbi : (SparseDispatcher.init E G).batch_index =
      (List.range E).flatMap fun e => routedTo G e := by
    rw [init_batch_index G E hrect hnn, flatAssign_map_fst]
  have hrowlen : ∀ e ∈ List.range E, ∀ r ∈ (routedTo G e).map x.row, r.length = fs.prod := by
    intro e _ r hr
    rw [List.mem_map] at hr
    obtain ⟨i, hi, rfl⟩ := hr
    exact row_length hshape hwf (mem_routedTo.mp hi).1
  unfold SparseDispatcher.dispatch
  rw [hbi]
  have hsel : x.indexSelect0 ((List.range E).flatMap fun e => routedTo G e) =
      ⟨((List.range E).flatMap fun e => routedTo G e).length :: fs,
        ((List.range E).map fun e => ((routedTo G e).map x.row).flatten).flatten⟩ := by
    unfold Tensor.indexSelect0
    rw [hshape]
    refine congrArg (Tensor.mk _) ?_
    rw [List.map_flatMap, flatten_flatMap]
  rw [hsel]
  have hguard : ¬ ((((List.range E).flatMap fun e => routedTo G e).length :: fs).length < 2) := by
    rcases fs with _ | ⟨f, rest⟩
    · exact absurd rfl hfs
    · simp
  rw [if_neg hguard, squeeze1_cons]
  have hps : (SparseDispatcher.init E G).part_sizes =
      (List.range E).map fun e => (routedTo G e).length := init_part_sizes G E
  rw [hps]
  refine congrArg some ?_
  have hsp0 : ∀ (n : ℕ) (tl : List ℕ) (dd : List ℚ) (sizes : List ℕ),
      Tensor.split0 ⟨n :: tl, dd⟩ sizes = splitSizesAux tl tl.prod sizes dd := fun _ _ _ _ => rfl
  rw [hsp0, squeezeTail_prod]
  have hfa : List.Forall₂ (fun s seg => (seg : List ℚ).length = s * fs.prod)
      ((List.range E).map fun e => (routedTo G e).length)
      ((List.range E).map fun e => ((routedTo G e).map x.row).flatten) := by
    refine forall₂_of_map ?_
    intro e he
    rw [flatten_length_uniform fs.prod _ (hrowlen e he), List.length_map]
  have hsplit := splitSizesAux_flatten (squeezeTail fs) fs.prod
    ((List.range E).map fun e => (routedTo G e).length)
    ((List.range E).map fun e => ((routedTo G e).map x.row).flatten) hfa
  rw [hsplit, zipWith_map_same]

/-! ### Combine -/

theorem exists_getD_of_mem {α : Type} {l : List α} {u : α} (h : u ∈ l) (d : α) :
    ∃ j, j < l.length ∧ u = l.getD j d := by
  obtain ⟨j, hj, rfl⟩ := List.mem_iff_getElem.mp h
  exact ⟨j, hj, by rw [List.getD_eq_getElem?_getD, List.getElem?_eq_getElem hj]; rfl⟩

theorem getD_replicate_zero (n p : ℕ) : (List.replicate n (0 : ℚ)).getD p 0 = 0 := by
  rw [List.getD_eq_getElem?_getD, List.getElem?_replicate]
  by_cases h : p < n <;> simp [h]

theorem replicate_drop_take (B i rn : ℕ) (hi : i < B) :
    ((List.replicate (B * rn) (0 : ℚ)).drop (i * rn)).take rn = List.replicate rn 0 := by
  rw [List.drop_replicate, List.take_replicate]
  have hsub : B * rn - i * rn = (B - i) * rn := (Nat.sub_mul _ _ _).symm
  have h1 : 1 ≤ B - i := by omega
  have hle : rn ≤ (B - i) * rn := by
    calc rn = 1 * rn := (Nat.one_mul _).symm
      _ ≤ (B - i) * rn := Nat.mul_le_mul_right _ h1
  rw [hsub]
  congr 1
  omega

theorem emap_row (t : Tensor) (f : ℚ → ℚ) (i : ℕ) :
    (t.emap f).row i = (t.row i).map f := by
  unfold Tensor.emap Tensor.row Tensor.rowNumel
  simp [List.map_drop, List.map_take]

theorem wellShaped_wf {G : List (List ℚ)} {E s1 s2 s3 : ℕ} {outs : List Tensor}
    (hws : wellShaped G E s1 s2 s3 outs) {e : ℕ} (he : e < E) :
    (outs.getD e default).shape = [(routedTo G e).length, s1, s2, s3] ∧
      (outs.getD e default).data.length = (routedTo G e).length * ([s1, s2, s3] : List ℕ).prod := by
  obtain ⟨hlen, hsh⟩ := hws
  obtain ⟨h1, h2⟩ := hsh e he
  refine ⟨h1, ?_⟩
  rw [Tensor.wf] at h2
  rw [h2, h1]
  simp [List.prod_cons]

theorem asgRow_length {G : List (List ℚ)} {E s1 s2 s3 : ℕ} {outs : List Tensor}
    (hws : wellShaped G E s1 s2 s3 outs) {q : ℕ × ℕ} (hq : q ∈ flatAssign G E) :
    (asgRow G outs q).length = ([s1, s2, s3] : List ℕ).prod := by
  obtain ⟨hi, he, hg⟩ := flatAssign_mem hq
  obtain ⟨hsh, hdl⟩ := wellShaped_wf hws he
  have hroute : q.1 ∈ routedTo G q.2 := mem_routedTo.mpr ⟨hi, hg⟩
  have hcp : chunkPos G q.2 q.1 < (routedTo G q.2).length := chunkPos_lt_of_mem hroute
  unfold asgRow
  exact row_length hsh (by rw [Tensor.wf, hsh, hdl]; simp [List.prod_cons]) hcp

theorem scaledRow_length {fexp : ℚ → ℚ} {G : List (List ℚ)} {E s1 s2 s3 : ℕ}
    {outs : List Tensor} (hws : wellShaped G E s1 s2 s3 outs) {q : ℕ × ℕ}
    (hq : q ∈ flatAssign G E) :
    (scaledRow fexp G outs q).length = ([s1, s2, s3] : List ℕ).prod := by
  unfold scaledRow
  rw [List.length_map]
  exact asgRow_length hws hq

theorem cat0_spec (G : List (List ℚ)) (E s1 s2 s3 : ℕ) (outs : List Tensor)
    (hE : 0 < E) (hws : wellShaped G E s1 s2 s3 outs) :
    cat0 outs = some ⟨(flatAssign G E).length :: [s1, s2, s3], (outs.map Tensor.data).flatten⟩ := by
  obtain ⟨hlen, hsh⟩ := hws
  rcases houts : outs with _ | ⟨t, rest⟩
  · rw [houts] at hlen
    simp at hlen
    omega
  rw [← houts]
  have htail : ∀ u ∈ outs, u.shape ≠ [] ∧ u.shape.tail = t.shape.tail := by
    have ht0 : t = outs.getD 0 default := by rw [houts]; rfl
    have hsh0 := (hsh 0 (by omega)).1
    intro u hu
    obtain ⟨j, hj, rfl⟩ := exists_getD_of_mem hu default
    rw [hlen] at hj
    have hshj := (hsh j hj).1
    rw [hshj, ht0, hsh0]
    exact ⟨by simp, rfl⟩
  have hcat : cat0 outs = some ⟨(outs.map fun u => u.shape.headI).sum :: t.shape.tail,
      (outs.map Tensor.data).flatten⟩ := by
    rw [houts]
    rw [cat0, if_pos (houts ▸ htail)]
  rw [hcat]
  have ht0 : t = outs.getD 0 default := by rw [houts]; rfl
  have hsh0 := (hsh 0 (by omega)).1
  have hheads : (outs.map fun u => u.shape.headI).sum = (flatAssign G E).length := by
    rw [flatAssign_length]
    have h1 : (outs.map fun u => u.shape.headI) =
        (List.range outs.length).map fun j => (outs.getD j default).shape.headI :=
      (range_map_getD outs (fun u => u.shape.headI) default).symm
    rw [h1, hlen]
    refine congrArg List.sum (List.map_congr_left ?_)
    intro e he
    rw [(hsh e (List.mem_range.mp he)).1]
    rfl
  rw [hheads, ht0, hsh0]
  rfl

theorem outs_data_eq_asgRows (G : List (List ℚ)) (E s1 s2 s3 : ℕ) (outs : List Tensor)
    (hws : wellShaped G E s1 s2 s3 outs) :
    (outs.map Tensor.data).flatten = ((flatAssign G E).map fun q => asgRow G outs q).flatten := by
  obtain ⟨hlen, hsh⟩ := hws
  have hmap : (flatAssign G E).map (fun q => asgRow G outs q) =
      (List.range E).flatMap fun e =>
        (List.range (routedTo G e).length).map (outs.getD e default).row := by
    unfold flatAssign
    rw [List.map_flatMap]
    refine flatMap_congr ?_
    intro e _
    rw [List.map_map]
    have hc : ((fun q => asgRow G outs q) ∘ fun i => (i, e)) =
        (outs.getD e default).row ∘ fun i => chunkPos G e i := rfl
    rw [hc, ← List.map_map, routedTo_map_chunkPos]
  rw [hmap, flatten_flatMap]
  have houts : outs.map Tensor.data =
      (List.range E).map fun e =>
        ((List.range (routedTo G e).length).map (outs.getD e default).row).flatten := by
    have h1 : outs.map Tensor.data =
        (List.range outs.length).map fun j => (outs.getD j default).data :=
      (range_map_getD outs Tensor.data default).symm
    rw [h1, hlen]
    refine List.map_congr_left ?_
    intro e he
    obtain ⟨hsh1, hdl⟩ := wellShaped_wf ⟨hlen, hsh⟩ (List.mem_range.mp he)
    have hrow : ∀ j : ℕ, (outs.getD e default).row j =
        (((outs.getD e default).data.drop (j * ([s1, s2, s3] : List ℕ).prod)).take
          (([s1, s2, s3] : List ℕ).prod)) := by
      intro j
      unfold Tensor.row
      rw [Tensor.rowNumel, hsh1]
      rfl
    rw [(rows_flatten_eq (([s1, s2, s3] : List ℕ).prod) (routedTo G e).length
      (outs.getD e default).data hdl).symm]
    refine congrArg List.flatten (List.map_congr_left ?_)
    intro j _
    rw [hrow j]
  rw [houts]

theorem stitched_spec (fexp : ℚ → ℚ) (G : List (List ℚ)) (E s1 s2 s3 : ℕ)
    (outs : List Tensor) (hrect : rectangular E G) (hnn : nonnegGates G)
    (hws : wellShaped G E s1 s2 s3 outs) :
    einsumScale
        ((⟨(flatAssign G E).length :: [s1, s2, s3],
          (outs.map Tensor.data).flatten⟩ : Tensor).emap fexp)
        (SparseDispatcher.init E G).nonzero_gates =
      some ⟨(flatAssign G E).length :: [s1, s2, s3],
        ((flatAssign G E).map fun q => scaledRow fexp G outs q).flatten⟩ := by
  rw [init_nonzero_gates G E hrect hnn]
  have hgvlen : ((flatAssign G E).map fun q => gval G q.1 q.2).length = (flatAssign G E).length :=
    List.length_map _ _
  rw [einsumScale, if_pos (⟨rfl, rfl⟩ :
    ((⟨(flatAssign G E).length :: [s1, s2, s3],
      (outs.map Tensor.data).flatten⟩ : Tensor).emap fexp).shape.length = 4 ∧
    (Tensor.mk [(flatAssign G E).length, 1]
      ((flatAssign G E).map fun q => gval G q.1 q.2)).shape =
      [((⟨(flatAssign G E).length :: [s1, s2, s3],
        (outs.map Tensor.data).flatten⟩ : Tensor).emap fexp).shape.headI, 1])]
  refine congrArg some (congrArg (Tensor.mk _) (congrArg List.flatten ?_))
  have hstep : ∀ j ∈ List.range (((⟨(flatAssign G E).length :: [s1, s2, s3],
      (outs.map Tensor.data).flatten⟩ : Tensor).emap fexp).shape.headI),
      ((((⟨(flatAssign G E).length :: [s1, s2, s3],
        (outs.map Tensor.data).flatten⟩ : Tensor).emap fexp).row j).map fun v =>
          (Tensor.mk [(flatAssign G E).length, 1]
            ((flatAssign G E).map fun q => gval G q.1 q.2)).data.getD j 0 * v) =
      scaledRow fexp G outs ((flatAssign G E).getD j (0, 0)) := by
    intro j hj
    have hjlt : j < (flatAssign G E).length := by
      simpa using List.mem_range.mp hj
    rw [emap_row]
    have hrowj : (⟨(flatAssign G E).length :: [s1, s2, s3],
        (outs.map Tensor.data).flatten⟩ : Tensor).row j =
        asgRow G outs ((flatAssign G E).getD j (0, 0)) := by
      have hrw : (⟨(flatAssign G E).length :: [s1, s2, s3],
          (outs.map Tensor.data).flatten⟩ : Tensor).row j =
          (((outs.map Tensor.data).flatten).drop (j * ([s1, s2, s3] : List ℕ).prod)).take
            (([s1, s2, s3] : List ℕ).prod) := rfl
      rw [hrw, outs_data_eq_asgRows G E s1 s2 s3 outs hws,
        flatten_drop_take (([s1, s2, s3] : List ℕ).prod) _ j
          (by
            intro r hr
            rw [List.mem_map] at hr
            obtain ⟨q, hq, rfl⟩ := hr
            exact asgRow_length hws hq)
          (by rw [List.length_map]; exact hjlt),
        getD_map_of_lt (fun q => asgRow G outs q) _ j hjlt (0, 0)]
    rw [hrowj]
    have hgv : (Tensor.mk [(flatAssign G E).length, 1]
        ((flatAssign G E).map fun q => gval G q.1 q.2)).data.getD j 0 =
        gval G ((flatAssign G E).getD j (0, 0)).1 ((flatAssign G E).getD j (0, 0)).2 := by
      exact getD_map_of_lt (fun q => gval G q.1 q.2) _ j hjlt (0, 0) 0
    rw [hgv]
    unfold scaledRow
    rw [List.map_map]
    rfl
  rw [List.map_congr_left hstep]
  have hlen2 : (((⟨(flatAssign G E).length :: [s1, s2, s3],
      (outs.map Tensor.data).flatten⟩ : Tensor).emap fexp)).shape.headI =
      (flatAssign G E).length := rfl
  rw [hlen2]
  have := range_map_getD (flatAssign G E) (fun q => scaledRow fexp G outs q) (0, 0)
  exact this

theorem mem_expertsOf {G : List (List ℚ)} {E i e : ℕ} :
    e ∈ expertsOf G E i ↔ e < E ∧ 0 < gval G i e := by
  simp [expertsOf, List.mem_filter, List.mem_range]

theorem flatAssign_mem_of {G : List (List ℚ)} {E i e : ℕ} (hi : i < G.length) (he : e < E)
    (hg : 0 < gval G i e) : (i, e) ∈ flatAssign G E := by
  unfold flatAssign
  rw [List.mem_flatMap]
  exact ⟨e, List.mem_range.mpr he, List.mem_map_of_mem _ (mem_routedTo.mpr ⟨hi, hg⟩)⟩

theorem filter_range_and_eq (B i : ℕ) (r : ℕ → Bool) :
    ((List.range B).filter fun a => decide (a = i) && r a) =
      if i < B ∧ r i = true then [i] else [] := by
  induction B with
  | zero => simp
  | succ k ih =>
    rw [List.range_succ, List.filter_append, ih]
    rcases Nat.lt_trichotomy i k with hik | hik | hik
    · have h2 : ¬ (k = i) := by omega
      have h3 : i < k + 1 := by omega
      by_cases hr : r i = true <;> simp [hik, h2, h3, hr]
    · subst hik
      have h2 : ¬ i < i := lt_irrefl i
      by_cases hr : r i = true <;> simp [h2, hr, Nat.lt_succ_self]
    · have h2 : ¬ i < k := by omega
      have h4 : ¬ i < k + 1 := by omega
      have h3 : ¬ (k = i) := by omega
      simp [h2, h3, h4]

theorem flatAssign_filter_fst (G : List (List ℚ)) (E i : ℕ) (hi : i < G.length) :
    ((flatAssign G E).filter fun q => decide (q.1 = i)) =
      (expertsOf G E i).map fun e => (i, e) := by
  unfold flatAssign
  rw [List.filter_flatMap]
  have hcong : ∀ e ∈ List.range E,
      ((((routedTo G e).map fun i2 => (i2, e)).filter fun q => decide (q.1 = i))) =
      if decide (0 < gval G i e) then [(i, e)] else [] := by
    intro e _
    rw [List.filter_map]
    have hc : ((fun q : ℕ × ℕ => decide (q.1 = i)) ∘ fun i2 => (i2, e)) =
        fun i2 => decide (i2 = i) := rfl
    rw [hc]
    unfold routedTo
    rw [List.filter_filter, filter_range_and_eq G.length i fun a => decide (0 < gval G a e)]
    by_cases hg : 0 < gval G i e
    · rw [if_pos ⟨hi, by simpa using hg⟩, if_pos (by simpa using hg)]
      rfl
    · rw [if_neg (fun hc2 => hg (by simpa using hc2.2)), if_neg (by simpa using hg)]
      rfl
  rw [flatMap_congr hcong, flatMap_if_singleton]
  rfl

theorem combRowL_length (fexp : ℚ → ℚ) (G : List (List ℚ)) (E s1 s2 s3 : ℕ)
    (outs : List Tensor) (hws : wellShaped G E s1 s2 s3 outs) (i : ℕ) (hi : i < G.length) :
    (combRowL fexp G E outs (([s1, s2, s3] : List ℕ).prod) i).length =
      ([s1, s2, s3] : List ℕ).prod := by
  unfold combRowL
  rw [foldl_addVec_length]
  · exact List.length_replicate _ _
  · intro v hv
    rw [List.mem_map] at hv
    obtain ⟨e, he, rfl⟩ := hv
    obtain ⟨heE, hg⟩ := mem_expertsOf.mp he
    rw [List.length_replicate]
    exact scaledRow_length hws (flatAssign_mem_of hi heE hg)

theorem combRowL_getD (fexp : ℚ → ℚ) (G : List (List ℚ)) (E s1 s2 s3 : ℕ)
    (outs : List Tensor) (hws : wellShaped G E s1 s2 s3 outs) (i : ℕ) (hi : i < G.length)
    (p : ℕ) (hp : p < ([s1, s2, s3] : List ℕ).prod) :
    (combRowL fexp G E outs (([s1, s2, s3] : List ℕ).prod) i).getD p 0 =
      mixSum fexp G E outs i p := by
  unfold combRowL
  rw [foldl_addVec_getD]
  · rw [getD_replicate_zero, zero_add]
    unfold mixSum
    rw [List.map_map]
    refine congrArg List.sum (List.map_congr_left ?_)
    intro e he
    obtain ⟨heE, hg⟩ := mem_expertsOf.mp he
    have hmem : (i, e) ∈ flatAssign G E := flatAssign_mem_of hi heE hg
    have hlen : (asgRow G outs (i, e)).length = ([s1, s2, s3] : List ℕ).prod :=
      asgRow_length hws hmem
    have hc1 : (scaledRow fexp G outs (i, e)).getD p 0 =
        gval G i e * fexp ((asgRow G outs (i, e)).getD p 0) := by
      unfold scaledRow
      exact getD_map_of_lt _ _ p (by rw [hlen]; exact hp) 0 0
    rw [Function.comp_apply, hc1]
    rfl
  · intro v hv
    rw [List.mem_map] at hv
    obtain ⟨e, he, rfl⟩ := hv
    obtain ⟨heE, hg⟩ := mem_expertsOf.mp he
    rw [List.length_replicate]
    exact scaledRow_length hws (flatAssign_mem_of hi heE hg)

theorem indexAdd_spec (fexp : ℚ → ℚ) (G : List (List ℚ)) (E s1 s2 s3 : ℕ)
    (outs : List Tensor) (hrect : rectangular E G) (hnn : nonnegGates G)
    (hws : wellShaped G E s1 s2 s3 outs) :
    Tensor.indexAdd0
        ⟨[G.length, s1, s2, s3], List.replicate (([G.length, s1, s2, s3] : List ℕ).prod) 0⟩
        (SparseDispatcher.init E G).batch_index
        ⟨(flatAssign G E).length :: [s1, s2, s3],
          ((flatAssign G E).map fun q => scaledRow fexp G outs q).flatten⟩ =
      some ⟨[G.length, s1, s2, s3],
        ((List.range G.length).map fun i =>
          combRowL fexp G E outs (([s1, s2, s3] : List ℕ).prod) i).flatten⟩ := by
  rw [init_batch_index G E hrect hnn]
  set rn := ([s1, s2, s3] : List ℕ).prod with hrn
  set n := (flatAssign G E).length with hn
  set src : Tensor := ⟨n :: [s1, s2, s3],
    ((flatAssign G E).map fun q => scaledRow fexp G outs q).flatten⟩ with hsrc
  set base : Tensor := ⟨[G.length, s1, s2, s3],
    List.replicate (([G.length, s1, s2, s3] : List ℕ).prod) 0⟩ with hbase
  have hscaledlen : ∀ r ∈ (flatAssign G E).map fun q => scaledRow fexp G outs q, r.length = rn := by
    intro r hr
    rw [List.mem_map] at hr
    obtain ⟨q, hq, rfl⟩ := hr
    exact scaledRow_length hws hq
  have hcond : src.shape.tail = base.shape.tail ∧
      ((flatAssign G E).map fun q => q.1).length = src.shape.headI ∧
      ∀ i ∈ (flatAssign G E).map fun q => q.1, i < base.shape.headI := by
    refine ⟨rfl, by rw [List.length_map]; rfl, ?_⟩
    intro i hi
    rw [List.mem_map] at hi
    obtain ⟨q, hq, rfl⟩ := hi
    exact (flatAssign_mem hq).1
  rw [Tensor.indexAdd0, if_pos hcond]
  refine congrArg some (congrArg (Tensor.mk _) (congrArg List.flatten ?_))
  have hheadI : base.shape.headI = G.length := rfl
  rw [hheadI]
  refine List.map_congr_left ?_
  intro i hi
  have hiB : i < G.length := List.mem_range.mp hi
  -- the base row is a zero row
  have hbaserow : base.row i = List.replicate rn 0 := by
    have hb : base.row i =
        ((List.replicate (G.length * rn) (0 : ℚ)).drop (i * rn)).take rn := by
      unfold Tensor.row
      rw [hbase]
      have hprod : ([G.length, s1, s2, s3] : List ℕ).prod = G.length * rn := by
        rw [hrn]
        simp [List.prod_cons]
      rw [hprod]
      rfl
    rw [hb, replicate_drop_take _ _ _ hiB]
  -- the index list restricted to this sample
  have hidxlen : ((flatAssign G E).map fun q => q.1).length = n := List.length_map _ _
  have hfilter : ((List.range ((flatAssign G E).map fun q => q.1).length).filter fun j =>
      decide ((((flatAssign G E).map fun q => q.1)).getD j 0 = i)) =
      (List.range n).filter fun j => decide (((flatAssign G E).getD j (0, 0)).1 = i) := by
    rw [hidxlen]
    refine List.filter_congr ?_
    intro j hj
    have hjn : j < n := List.mem_range.mp hj
    rw [getD_map_of_lt (fun q => q.1) _ j hjn (0, 0) 0]
  rw [hfilter]
  have hsrcrow : ∀ j ∈ (List.range n).filter fun j =>
      decide (((flatAssign G E).getD j (0, 0)).1 = i),
      src.row j = scaledRow fexp G outs ((flatAssign G E).getD j (0, 0)) := by
    intro j hj
    have hjn : j < n := List.mem_range.mp (List.mem_of_mem_filter hj)
    have hr : src.row j =
        ((((flatAssign G E).map fun q => scaledRow fexp G outs q).flatten).drop (j * rn)).take rn :=
      rfl
    rw [hr, flatten_drop_take rn _ j hscaledlen (by rw [List.length_map]; exact hjn),
      getD_map_of_lt (fun q => scaledRow fexp G outs q) _ j hjn (0, 0)]
  rw [List.map_congr_left hsrcrow]
  have hfm := range_filter_map_getD (flatAssign G E)
    (fun q => decide (q.1 = i)) (fun q => scaledRow fexp G outs q) (0, 0)
  rw [hn, hfm, flatAssign_filter_fst G E i hiB, List.map_map, hbaserow]
  rfl

theorem getLast?_eq_getD {α : Type} [Inhabited α] (l : List α) (h : l ≠ []) :
    l.getLast? = some (l.getD (l.length - 1) default) := by
  rw [List.getLast?_eq_getElem?]
  have hlt : l.length - 1 < l.length := by
    cases l with
    | nil => exact absurd rfl h
    | cons a as => simp
  rw [List.getElem?_eq_getElem hlt, List.getD_eq_getElem?_getD, List.getElem?_eq_getElem hlt]
  rfl

theorem getElem_eq_getD {α : Type} (l : List α) (p : ℕ) (hp : p < l.length) (d : α) :
    l[p] = l.getD p d := by
  rw [List.getD_eq_getElem?_getD, List.getElem?_eq_getElem hp]
  rfl

theorem combine_formula (fexp flog : ℚ → ℚ) (G : List (List ℚ)) (E s1 s2 s3 : ℕ)
    (outs : List Tensor) (hE : 0 < E) (hrect : rectangular E G) (hnn : nonnegGates G)
    (hws : wellShaped G E s1 s2 s3 outs) :
    SparseDispatcher.combine fexp flog (SparseDispatcher.init E G) outs true =
      some ⟨[G.length, s1, s2, s3],
        ((((List.range G.length).map fun i =>
          combRowL fexp G E outs (([s1, s2, s3] : List ℕ).prod) i).flatten).map
            fun v => if v = 0 then npFinfoFloatEps else v).map flog⟩ := by
  have hcat := cat0_spec G E s1 s2 s3 outs hE hws
  have hst := stitched_spec fexp G E s1 s2 s3 outs hrect hnn hws
  have hne : outs ≠ [] := by
    intro hc
    obtain ⟨hlen, _⟩ := hws
    rw [hc] at hlen
    simp at hlen
    omega
  have hlast : outs.getLast? = some (outs.getD (E - 1) default) := by
    rw [getLast?_eq_getD outs hne, hws.1]
  have hlshape : (outs.getD (E - 1) default).shape = [(routedTo G (E - 1)).length, s1, s2, s3] :=
    (hws.2 (E - 1) (by omega)).1
  unfold SparseDispatcher.combine
  simp only [hcat, hst, hlast, init_gates, hlshape, List.getD_cons_succ, List.getD_cons_zero,
    List.length_cons, List.length_nil, Nat.lt_irrefl, if_false, if_true]
  rw [indexAdd_spec fexp G E s1 s2 s3 outs hrect hnn hws]
  rfl

theorem combineRes_row (fexp flog : ℚ → ℚ) (G : List (List ℚ)) (E s1 s2 s3 : ℕ)
    (outs : List Tensor) (hws : wellShaped G E s1 s2 s3 outs) (i : ℕ) (hi : i < G.length) :
    (⟨[G.length, s1, s2, s3],
      ((((List.range G.length).map fun i2 =>
        combRowL fexp G E outs (([s1, s2, s3] : List ℕ).prod) i2).flatten).map
          fun v => if v = 0 then npFinfoFloatEps else v).map flog⟩ : Tensor).row i =
      ((combRowL fexp G E outs (([s1, s2, s3] : List ℕ).prod) i).map
        fun v => if v = 0 then npFinfoFloatEps else v).map flog := by
  set rn := ([s1, s2, s3] : List ℕ).prod with hrn
  have hrow : (⟨[G.length, s1, s2, s3],
      ((((List.range G.length).map fun i2 => combRowL fexp G E outs rn i2).flatten).map
        fun v => if v = 0 then npFinfoFloatEps else v).map flog⟩ : Tensor).row i =
      ((((((List.range G.length).map fun i2 => combRowL fexp G E outs rn i2).flatten).map
        fun v => if v = 0 then npFinfoFloatEps else v).map flog).drop (i * rn)).take rn := rfl
  rw [hrow, ← List.map_drop, ← List.map_take, ← List.map_drop, ← List.map_take,
    flatten_drop_take rn _ i ?hlens ?hilen]
  · rw [getD_map_of_lt (fun i2 => combRowL fexp G E outs rn i2) _ i (by simpa using hi) 0,
      getD_range_of_lt hi]
  case hlens =>
    intro r hr
    rw [List.mem_map] at hr
    obtain ⟨j, hj, rfl⟩ := hr
    exact combRowL_length fexp G E s1 s2 s3 outs hws j (List.mem_range.mp hj)
  case hilen =>
    simpa using hi

theorem combineRes_entry (fexp flog : ℚ → ℚ) (G : List (List ℚ)) (E s1 s2 s3 : ℕ)
    (outs : List Tensor) (hws : wellShaped G E s1 s2 s3 outs) (i : ℕ) (hi : i < G.length)
    (p : ℕ) (hp : p < ([s1, s2, s3] : List ℕ).prod) :
    (⟨[G.length, s1, s2, s3],
      ((((List.range G.length).map fun i2 =>
        combRowL fexp G E outs (([s1, s2, s3] : List ℕ).prod) i2).flatten).map
          fun v => if v = 0 then npFinfoFloatEps else v).map flog⟩ : Tensor).entry i p =
      flog (if mixSum fexp G E outs i p = 0 then npFinfoFloatEps
        else mixSum fexp G E outs i p) := by
  unfold Tensor.entry
  rw [combineRes_row fexp flog G E s1 s2 s3 outs hws i hi]
  have hlen1 : (combRowL fexp G E outs (([s1, s2, s3] : List ℕ).prod) i).length =
      ([s1, s2, s3] : List ℕ).prod := combRowL_length fexp G E s1 s2 s3 outs hws i hi
  rw [getD_map_of_lt flog _ p (by rw [List.length_map, hlen1]; exact hp) 0 0,
    getD_map_of_lt (fun v => if v = 0 then npFinfoFloatEps else v) _ p
      (by rw [hlen1]; exact hp) 0 0,
    combRowL_getD fexp G E s1 s2 s3 outs hws i hi p hp]

theorem combineRes_mem (fexp flog : ℚ → ℚ) (G : List (List ℚ)) (E s1 s2 s3 : ℕ)
    (outs : List Tensor) (hws : wellShaped G E s1 s2 s3 outs) (x : ℚ)
    (hx : x ∈ ((((List.range G.length).map fun i2 =>
        combRowL fexp G E outs (([s1, s2, s3] : List ℕ).prod) i2).flatten).map
          fun v => if v = 0 then npFinfoFloatEps else v).map flog) :
    ∃ i, i < G.length ∧ ∃ p, p < ([s1, s2, s3] : List ℕ).prod ∧
      x = flog (if mixSum fexp G E outs i p = 0 then npFinfoFloatEps
        else mixSum fexp G E outs i p) := by
  rw [List.mem_map] at hx
  obtain ⟨y, hy, rfl⟩ := hx
  rw [List.mem_map] at hy
  obtain ⟨z, hz, rfl⟩ := hy
  rw [List.mem_flatten] at hz
  obtain ⟨row, hrow, hzrow⟩ := hz
  rw [List.mem_map] at hrow
  obtain ⟨i, hi, rfl⟩ := hrow
  have hiB : i < G.length := List.mem_range.mp hi
  obtain ⟨p, hp, rfl⟩ := List.mem_iff_getElem.mp hzrow
  have hlen1 : (combRowL fexp G E outs (([s1, s2, s3] : List ℕ).prod) i).length =
      ([s1, s2, s3] : List ℕ).prod := combRowL_length fexp G E s1 s2 s3 outs hws i hiB
  refine ⟨i, hiB, p, by rw [← hlen1]; exact hp, ?_⟩
  rw [getElem_eq_getD _ p hp 0, combRowL_getD fexp G E s1 s2 s3 outs hws i hiB p
    (by rw [← hlen1]; exact hp)]

theorem mixSum_pos (fexp : ℚ → ℚ) (G : List (List ℚ)) (E : ℕ) (outs : List Tensor)
    (i p : ℕ) (hfe : ∀ y, 0 < fexp y) (hne : expertsOf G E i ≠ []) :
    0 < mixSum fexp G E outs i p := by
  unfold mixSum
  apply List.sum_pos
  · intro x hx
    rw [List.mem_map] at hx
    obtain ⟨e2, he2, rfl⟩ := hx
    exact mul_pos (mem_expertsOf.mp he2).2 (hfe _)
  · simpa using hne

/-- C2: for a dispatcher built from a non-negative gate matrix and well-shaped
expert outputs, `combine(..., multiply_by_gates=true)` gives each routed
sample `i`, at each feature offset, the value
`flog (sum over e in S_i of G[i][e] * fexp (out_e_i))`, where `out_e_i` is
the row of expert `e`'s output at sample `i`'s chunk position (`fexp`/`flog`
are the abstract elementwise exp/log, with exp positive as the real exp is;
positivity makes the epsilon floor inactive on routed samples). -/
theorem combine_accumulates_weighted_exp (fexp flog : ℚ → ℚ) (G : List (List ℚ))
    (E s1 s2 s3 : ℕ) (outs : List Tensor) (hE : 0 < E) (hrect : rectangular E G)
    (hnn : nonnegGates G) (hws : wellShaped G E s1 s2 s3 outs)
    (hfe : ∀ y, 0 < fexp y) (i : ℕ) (hi : i < G.length)
    (hne : expertsOf G E i ≠ []) (p : ℕ) (hp : p < ([s1, s2, s3] : List ℕ).prod) :
    SparseDispatcher.combine fexp flog (SparseDispatcher.init E G) outs true ≠ none ∧
    ((SparseDispatcher.combine fexp flog (SparseDispatcher.init E G) outs true).getD
      default).entry i p = flog (mixSum fexp G E outs i p) := by
  have hcf := combine_formula fexp flog G E s1 s2 s3 outs hE hrect hnn hws
  constructor
  · rw [hcf]
    simp
  · rw [hcf, Option.getD_some,
      combineRes_entry fexp flog G E s1 s2 s3 outs hws i hi p hp,
      if_neg (ne_of_gt (mixSum_pos fexp G E outs i p hfe hne))]

/-- Witness for C2 at the spec scenario: sample 2 is routed to both experts
with weight 1, and with `fexp` the constant 1 and `flog` the identity the
combined entry equals the two-term mixture sum. -/
theorem combine_accumulates_weighted_exp_witness :
    ((0:ℕ) < 2 ∧ rectangular 2 gatesEx ∧ nonnegGates gatesEx ∧
      wellShaped gatesEx 2 1 1 1 outsEx ∧ (2:ℕ) < gatesEx.length ∧
      expertsOf gatesEx 2 2 ≠ [] ∧ (0:ℕ) < ([1, 1, 1] : List ℕ).prod) ∧
    (SparseDispatcher.combine (fun _ => (1:ℚ)) id (SparseDispatcher.init 2 gatesEx) outsEx
      true ≠ none ∧
    ((SparseDispatcher.combine (fun _ => (1:ℚ)) id (SparseDispatcher.init 2 gatesEx) outsEx
      true).getD default).entry 2 0 = id (mixSum (fun _ => (1:ℚ)) gatesEx 2 outsEx 2 0)) := by
  refine ⟨⟨by decide, by decide, by decide, by decide, by decide, by decide, by decide⟩, ?_⟩
  exact combine_accumulates_weighted_exp (fun _ => 1) id gatesEx 2 1 1 1 outsEx (by decide)
    (by decide) (by decide) (by decide) (fun y => one_pos) 2 (by decide) (by decide) 0 (by decide)

theorem filterMap_ite_singleton {α β : Type} (l : List α) (p : α → Prop) [DecidablePred p]
    (f : α → β) :
    (l.filterMap fun a => if p a then some (f a) else none) =
      (l.filter fun a => decide (p a)).map f := by
  induction l with
  | nil => rfl
  | cons x xs ih =>
    rw [List.filterMap_cons, List.filter_cons]
    by_cases h : p x <;> simp [h, ih]

theorem sum_indicator_range (M a : ℕ) :
    ((List.range M).map fun k => if a = k then (1:ℕ) else 0).sum = if a < M then 1 else 0 := by
  induction M with
  | zero => simp
  | succ m ih =>
    rw [List.range_succ, List.map_append, List.sum_append, ih]
    by_cases h : a < m
    · have h2 : ¬ a = m := by omega
      simp [h, h2, Nat.lt_succ_of_lt h]
    · by_cases h2 : a = m
      · subst h2
        simp [h, Nat.lt_succ_self]
      · have h3 : ¬ a < m + 1 := by omega
        simp [h, h2, h3]

theorem length_groups {α : Type} (M : ℕ) (key : α → ℕ) (l : List α)
    (hk : ∀ a ∈ l, key a < M) :
    ((List.range M).map fun k => (l.filter fun a => decide (key a = k)).length).sum = l.length := by
  induction l with
  | nil => simp
  | cons x xs ih =>
    have hx : key x < M := hk x (List.mem_cons_self x xs)
    have hxs : ∀ a ∈ xs, key a < M := fun a ha => hk a (List.mem_cons_of_mem x ha)
    have hmap : ((List.range M).map fun k =>
        (((x :: xs).filter fun a => decide (key a = k))).length) =
        (List.range M).map fun k =>
          (if key x = k then 1 else 0) + ((xs.filter fun a => decide (key a = k))).length := by
      refine List.map_congr_left ?_
      intro k _
      rw [List.filter_cons]
      by_cases h : key x = k <;> simp [h, Nat.add_comm]
    rw [hmap, List.sum_map_add, sum_indicator_range, if_pos hx, ih hxs]
    simp [Nat.add_comm]

theorem sortByKey_length {α : Type} (key : α → ℕ) (l : List α) :
    (sortByKey key l).length = l.length := by
  unfold sortByKey
  rw [List.length_flatMap]
  have hmap : ((List.range ((l.map key).foldr max 0 + 1)).map fun k =>
      ((l.filter fun a => decide (key a = k))).length).sum = l.length := by
    refine length_groups _ key l ?_
    intro a ha
    exact Nat.lt_succ_of_le (le_foldr_max _ _ (List.mem_map_of_mem key ha))
  rw [← hmap]
  refine congrArg List.sum (List.map_congr_left ?_)
  intro k _
  rfl

theorem nonzeroPairs_length (G : List (List ℚ)) (hnn : nonnegGates G) :
    (nonzeroPairs G).length = posCount G := by
  unfold nonzeroPairs posCount
  rw [List.length_flatMap,
    ← range_map_getD G (fun row => row.countP fun x => decide (0 < x)) []]
  refine congrArg List.sum (List.map_congr_left ?_)
  intro i hi
  show (((List.range (G.getD i []).length).filterMap fun e =>
      if gval G i e ≠ 0 then some (i, e) else none)).length =
    (G.getD i []).countP fun x => decide (0 < x)
  rw [filterMap_ite_singleton, List.length_map, ← List.countP_eq_length_filter]
  have h2 : ((List.range (G.getD i []).length).countP fun e => decide (gval G i e ≠ 0)) =
      (G.getD i []).countP fun x => decide (x ≠ 0) :=
    countP_range_getD (G.getD i []) (fun x => decide (x ≠ 0)) 0
  rw [h2]
  refine List.countP_congr ?_
  intro x hx
  have hxnn : 0 ≤ x := by
    by_cases hiB : i < G.length
    · exact hnn _ (mem_getD_of_lt G i hiB []) x hx
    · rw [List.getD_eq_default _ _ (Nat.le_of_not_lt hiB)] at hx
      cases hx
  simp only [decide_eq_true_eq]
  constructor
  · intro hne
    exact lt_of_le_of_ne hxnn (Ne.symm hne)
  · exact ne_of_gt

/-- C3: `part_sizes` has length `E`, its `e`-th entry counts the samples
routed to expert `e` (in increasing expert order), and the entries sum to
the number of strictly positive gate entries. -/
theorem part_sizes_spec (G : List (List ℚ)) (E : ℕ) (hrect : rectangular E G)
    (hnn : nonnegGates G) :
    (SparseDispatcher.init E G).part_sizes.length = E ∧
    (∀ e < E, (SparseDispatcher.init E G).part_sizes.getD e 0 = (routedTo G e).length) ∧
    (SparseDispatcher.init E G).part_sizes.sum = posCount G := by
  rw [init_part_sizes G E]
  refine ⟨by rw [List.length_map, List.length_range], ?_, ?_⟩
  · intro e he
    rw [getD_map_of_lt (fun e2 => (routedTo G e2).length) _ e (by simpa using he) 0 0,
      getD_range_of_lt he]
  · rw [← flatAssign_length G E, ← sortedPairs_eq G E hrect hnn, sortByKey_length,
      nonzeroPairs_length G hnn]

/-- Witness for C3 at the spec scenario: `part_sizes = [2, 2]`, matching the
per-expert routed counts, and summing to the 4 positive entries of `G`. -/
theorem part_sizes_spec_witness :
    (rectangular 2 gatesEx ∧ nonnegGates gatesEx) ∧
    ((SparseDispatcher.init 2 gatesEx).part_sizes.length = 2 ∧
    (∀ e < 2, (SparseDispatcher.init 2 gatesEx).part_sizes.getD e 0 = (routedTo gatesEx e).length) ∧
    (SparseDispatcher.init 2 gatesEx).part_sizes.sum = posCount gatesEx) := by
  exact ⟨⟨by decide, by decide⟩, part_sizes_spec gatesEx 2 (by decide) (by decide)⟩

/-- C4: `expert_to_gates` splits the nonzero-gate vector by the dispatch
`part_sizes`: the chunk of expert `e` lists, in chunk order (ascending
sample id, matching the dispatched input chunk), exactly the gate values
`G[i][e]` of the samples routed to `e`. -/
theorem expert_to_gates_spec (G : List (List ℚ)) (E : ℕ) (hrect : rectangular E G)
    (hnn : nonnegGates G) :
    (SparseDispatcher.init E G).expert_to_gates.length = E ∧
    ∀ e < E, (SparseDispatcher.init E G).expert_to_gates.getD e default =
      ⟨[(routedTo G e).length, 1], (routedTo G e).map fun i => gval G i e⟩ := by
  unfold SparseDispatcher.expert_to_gates
  rw [init_nonzero_gates G E hrect hnn, init_part_sizes G E]
  have hsp0 : ∀ (n : ℕ) (dd : List ℚ) (sizes : List ℕ),
      Tensor.split0 ⟨[n, 1], dd⟩ sizes = splitSizesAux [1] 1 sizes dd := fun _ _ _ => rfl
  rw [hsp0]
  have hdata : (flatAssign G E).map (fun q => gval G q.1 q.2) =
      ((List.range E).map fun e => (routedTo G e).map fun i => gval G i e).flatten := by
    unfold flatAssign
    rw [List.map_flatMap, ← List.flatMap_def]
    refine flatMap_congr ?_
    intro e _
    rw [List.map_map]
    rfl
  rw [hdata]
  have hfa : List.Forall₂ (fun s seg => (seg : List ℚ).length = s * 1)
      ((List.range E).map fun e => (routedTo G e).length)
      ((List.range E).map fun e => (routedTo G e).map fun i => gval G i e) := by
    refine forall₂_of_map ?_
    intro e _
    rw [List.length_map, Nat.mul_one]
  rw [splitSizesAux_flatten [1] 1 _ _ hfa, zipWith_map_same]
  constructor
  · rw [List.length_map, List.length_range]
  · intro e he
    rw [getD_map_of_lt (fun e2 => (⟨[(routedTo G e2).length, 1],
        (routedTo G e2).map fun i => gval G i e2⟩ : Tensor)) _ e (by simpa using he) 0,
      getD_range_of_lt he]

/-- Witness for C4 at the spec scenario: expert 0 receives samples `{0, 2}`,
expert 1 receives `{1, 2}`, `part_sizes = [2, 2]`, and `expert_to_gates`
returns the gate chunks `[[1, 1], [1, 1]]`. -/
theorem expert_to_gates_spec_witness :
    (rectangular 2 gatesEx ∧ nonnegGates gatesEx ∧
      routedTo gatesEx 0 = [0, 2] ∧ routedTo gatesEx 1 = [1, 2] ∧
      (SparseDispatcher.init 2 gatesEx).part_sizes = [2, 2] ∧
      (SparseDispatcher.init 2 gatesEx).expert_to_gates =
        [⟨[2, 1], [1, 1]⟩, ⟨[2, 1], [1, 1]⟩]) ∧
    ((SparseDispatcher.init 2 gatesEx).expert_to_gates.length = 2 ∧
    ∀ e < 2, (SparseDispatcher.init 2 gatesEx).expert_to_gates.getD e default =
      ⟨[(routedTo gatesEx e).length, 1], (routedTo gatesEx e).map fun i => gval gatesEx i e⟩) := by
  exact ⟨⟨by decide, by decide, by decide, by decide, by decide, by decide⟩,
    expert_to_gates_spec gatesEx 2 (by decide) (by decide)⟩

theorem npFinfoFloatEps_pos : 0 < npFinfoFloatEps := by
  norm_num [npFinfoFloatEps]

theorem mixSum_eq_zero_of_unrouted (fexp : ℚ → ℚ) (G : List (List ℚ)) (E : ℕ)
    (outs : List Tensor) (i p : ℕ) (h : expertsOf G E i = []) :
    mixSum fexp G E outs i p = 0 := by
  unfold mixSum
  rw [h]
  rfl

/-- C5: for a non-negative gate matrix and well-shaped finite expert
outputs, `combine` succeeds, its result has leading dimension `B` with the
expert outputs' feature dimensions, and every entry — including those of
samples with zero assignments — is the logarithm of a strictly positive
value (the exact-arithmetic reading of "defined and finite": the argument
of the log is positive, so no NaN or infinity arises). -/
theorem combine_output_defined (fexp flog : ℚ → ℚ) (G : List (List ℚ)) (E s1 s2 s3 : ℕ)
    (outs : List Tensor) (hE : 0 < E) (hrect : rectangular E G) (hnn : nonnegGates G)
    (hws : wellShaped G E s1 s2 s3 outs) (hfe : ∀ y, 0 < fexp y) :
    SparseDispatcher.combine fexp flog (SparseDispatcher.init E G) outs true ≠ none ∧
    ((SparseDispatcher.combine fexp flog (SparseDispatcher.init E G) outs
      true).getD default).shape = G.length :: [s1, s2, s3] ∧
    ∀ x ∈ ((SparseDispatcher.combine fexp flog (SparseDispatcher.init E G) outs
      true).getD default).data, ∃ v : ℚ, 0 < v ∧ x = flog v := by
  have hcf := combine_formula fexp flog G E s1 s2 s3 outs hE hrect hnn hws
  rw [hcf, Option.getD_some]
  refine ⟨by simp, rfl, ?_⟩
  intro x hx
  obtain ⟨i, hi, p, hp, rfl⟩ := combineRes_mem fexp flog G E s1 s2 s3 outs hws x hx
  by_cases h0 : mixSum fexp G E outs i p = 0
  · exact ⟨npFinfoFloatEps, npFinfoFloatEps_pos, by rw [if_pos h0]⟩
  · refine ⟨mixSum fexp G E outs i p, ?_, by rw [if_neg h0]⟩
    rcases hne : expertsOf G E i with _ | ⟨e, es⟩
    · exact absurd (mixSum_eq_zero_of_unrouted fexp G E outs i p hne) h0
    · exact mixSum_pos fexp G E outs i p hfe (by rw [hne]; simp)

/-- Witness for C5 at the spec scenario (sample 3 has no assignments and
still receives the epsilon-floored, well-defined value). -/
theorem combine_output_defined_witness :
    ((0:ℕ) < 2 ∧ rectangular 2 gatesEx ∧ nonnegGates gatesEx ∧
      wellShaped gatesEx 2 1 1 1 outsEx) ∧
    (SparseDispatcher.combine (fun _ => (1:ℚ)) id (SparseDispatcher.init 2 gatesEx) outsEx
      true ≠ none ∧
    ((SparseDispatcher.combine (fun _ => (1:ℚ)) id (SparseDispatcher.init 2 gatesEx) outsEx
      true).getD default).shape = gatesEx.length :: [1, 1, 1] ∧
    ∀ x ∈ ((SparseDispatcher.combine (fun _ => (1:ℚ)) id (SparseDispatcher.init 2 gatesEx)
      outsEx true).getD default).data, ∃ v : ℚ, 0 < v ∧ x = id v) := by
  exact ⟨⟨by decide, by decide, by decide, by decide⟩,
    combine_output_defined (fun _ => 1) id gatesEx 2 1 1 1 outsEx (by decide) (by decide)
      (by decide) (by decide) (fun y => one_pos)⟩

/-- Counterexample for C6 as stated: in the concrete scenario, the
accumulator entry of sample 3 (which stays exactly zero) is replaced by
`np.finfo(float).eps = 2 ^ (-52)`, which is not the smallest representable
positive value of float64, nor of float32 — the accumulator's dtype — in
either the subnormal or the normal reading. -/
theorem combine_eps_substitution_cex :
    ((SparseDispatcher.combine (fun _ => (1:ℚ)) id (SparseDispatcher.init 2 gatesEx) outsEx
      true).getD default).entry 3 0 = npFinfoFloatEps ∧
    npFinfoFloatEps ≠ float64SmallestPos ∧
    npFinfoFloatEps ≠ float64SmallestPosNormal ∧
    npFinfoFloatEps ≠ float32SmallestPos ∧
    npFinfoFloatEps ≠ float32SmallestPosNormal := by
  have hcf := combine_formula (fun _ => (1:ℚ)) id gatesEx 2 1 1 1 outsEx (by decide) (by decide)
    (by decide) (by decide)
  refine ⟨?_, ?_, ?_, ?_, ?_⟩
  · rw [hcf, Option.getD_some,
      combineRes_entry (fun _ => (1:ℚ)) id gatesEx 2 1 1 1 outsEx (by decide) 3 (by decide)
        0 (by decide),
      if_pos (by decide : mixSum (fun _ => (1:ℚ)) gatesEx 2 outsEx 3 0 = 0)]
    rfl
  all_goals
    norm_num [npFinfoFloatEps, float64SmallestPos, float64SmallestPosNormal,
      float32SmallestPos, float32SmallestPosNormal]

/-- C6 (amended): every accumulator entry that is exactly zero after the
scatter-accumulate step is replaced, before the final elementwise
logarithm, by the fixed constant `np.finfo(float).eps` — the float64
machine epsilon `2 ^ (-52)` — which differs from the smallest representable
positive value of float64 and of float32 (the accumulator's dtype). -/
theorem combine_eps_substitution (fexp flog : ℚ → ℚ) (G : List (List ℚ)) (E s1 s2 s3 : ℕ)
    (outs : List Tensor) (hE : 0 < E) (hrect : rectangular E G) (hnn : nonnegGates G)
    (hws : wellShaped G E s1 s2 s3 outs) :
    (∀ i < G.length, ∀ p < ([s1, s2, s3] : List ℕ).prod,
      ((SparseDispatcher.combine fexp flog (SparseDispatcher.init E G) outs
        true).getD default).entry i p =
        flog (if mixSum fexp G E outs i p = 0 then npFinfoFloatEps
          else mixSum fexp G E outs i p)) ∧
    npFinfoFloatEps = 1 / 2 ^ 52 ∧
    npFinfoFloatEps ≠ float64SmallestPos ∧
    npFinfoFloatEps ≠ float32SmallestPos := by
  have hcf := combine_formula fexp flog G E s1 s2 s3 outs hE hrect hnn hws
  refine ⟨?_, rfl, ?_, ?_⟩
  · intro i hi p hp
    rw [hcf, Option.getD_some]
    exact combineRes_entry fexp flog G E s1 s2 s3 outs hws i hi p hp
  · norm_num [npFinfoFloatEps, float64SmallestPos]
  · norm_num [npFinfoFloatEps, float32SmallestPos]

/-- Witness for the amended C6 at the spec scenario: sample 3 receives
`flog (np.finfo(float).eps)`. -/
theorem combine_eps_substitution_witness :
    ((0:ℕ) < 2 ∧ rectangular 2 gatesEx ∧ nonnegGates gatesEx ∧
      wellShaped gatesEx 2 1 1 1 outsEx) ∧
    ((∀ i < gatesEx.length, ∀ p < ([1, 1, 1] : List ℕ).prod,
      ((SparseDispatcher.combine (fun _ => (1:ℚ)) id (SparseDispatcher.init 2 gatesEx) outsEx
        true).getD default).entry i p =
        id (if mixSum (fun _ => (1:ℚ)) gatesEx 2 outsEx i p = 0 then npFinfoFloatEps
          else mixSum (fun _ => (1:ℚ)) gatesEx 2 outsEx i p)) ∧
    npFinfoFloatEps = 1 / 2 ^ 52 ∧
    npFinfoFloatEps ≠ float64SmallestPos ∧
    npFinfoFloatEps ≠ float32SmallestPos) := by
  exact ⟨⟨by decide, by decide, by decide, by decide⟩,
    combine_eps_substitution (fun _ => 1) id gatesEx 2 1 1 1 outsEx (by decide) (by decide)
      (by decide) (by decide)⟩

theorem squeezeTail_cons (f1 : ℕ) (rest : List ℕ) :
    squeezeTail (f1 :: rest) = if f1 = 1 then rest else f1 :: rest := by
  match f1 with
  | 0 => rfl
  | 1 => rfl
  | (k + 2) => rfl

/-- Counterexample for C7 as stated: with `G = [[1]]` and the rank-2 input
of shape `[1, 1]`, the dispatched chunk has shape `[1]` — `squeeze(1)` has
removed the size-1 feature dimension, so the feature dimensions are not
passed through unchanged. -/
theorem dispatch_feature_dims_cex :
    (SparseDispatcher.init 1 [[(1:ℚ)]]).dispatch ⟨[1, 1], [5]⟩ = some [⟨[1], [5]⟩] ∧
    ((((SparseDispatcher.init 1 [[(1:ℚ)]]).dispatch ⟨[1, 1], [5]⟩).getD []).getD 0
      default).shape.tail ≠ (⟨[1, 1], [(5:ℚ)]⟩ : Tensor).shape.tail := by
  exact ⟨by decide, by decide⟩

/-- C7 (amended): dispatch chunks carry the input's feature dimensions
unchanged, except that a leading feature dimension of size exactly 1 is
removed by the `squeeze(1)` in `dispatch` (and rank-1 inputs are rejected
by that same `squeeze(1)`). -/
theorem dispatch_feature_dims (G : List (List ℚ)) (E : ℕ) (hrect : rectangular E G)
    (hnn : nonnegGates G) (x : Tensor) (f1 : ℕ) (rest : List ℕ)
    (hshape : x.shape = G.length :: f1 :: rest) (hwf : x.wf) :
    (SparseDispatcher.init E G).dispatch x ≠ none ∧
    (((SparseDispatcher.init E G).dispatch x).getD []).length = E ∧
    ∀ e < E, ((((SparseDispatcher.init E G).dispatch x).getD []).getD e default).shape.tail =
      if f1 = 1 then rest else f1 :: rest := by
  have hd := dispatch_spec G E hrect hnn x (f1 :: rest) hshape hwf (by simp)
  rw [hd, Option.getD_some]
  refine ⟨by simp, by rw [List.length_map, List.length_range], ?_⟩
  intro e he
  rw [getD_map_of_lt (fun e2 => (⟨(routedTo G e2).length :: squeezeTail (f1 :: rest),
      ((routedTo G e2).map x.row).flatten⟩ : Tensor)) _ e (by simpa using he) 0,
    getD_range_of_lt he]
  show squeezeTail (f1 :: rest) = if f1 = 1 then rest else f1 :: rest
  exact squeezeTail_cons f1 rest

/-- Witness for the amended C7 at the spec scenario, with feature
dimensions `[2]` (not size 1, hence preserved). -/
theorem dispatch_feature_dims_witness :
    (rectangular 2 gatesEx ∧ nonnegGates gatesEx ∧
      (⟨[4, 2], [10, 11, 20, 21, 30, 31, 40, 41]⟩ : Tensor).shape = gatesEx.length :: 2 :: [] ∧
      (⟨[4, 2], [10, 11, 20, 21, 30, 31, 40, 41]⟩ : Tensor).wf) ∧
    ((SparseDispatcher.init 2 gatesEx).dispatch
      ⟨[4, 2], [10, 11, 20, 21, 30, 31, 40, 41]⟩ ≠ none ∧
    (((SparseDispatcher.init 2 gatesEx).dispatch
      ⟨[4, 2], [10, 11, 20, 21, 30, 31, 40, 41]⟩).getD []).length = 2 ∧
    ∀ e < 2, ((((SparseDispatcher.init 2 gatesEx).dispatch
      ⟨[4, 2], [10, 11, 20, 21, 30, 31, 40, 41]⟩).getD []).getD e default).shape.tail =
        if (2:ℕ) = 1 then [] else 2 :: []) := by
  exact ⟨⟨by decide, by decide, by decide, by decide⟩,
    dispatch_feature_dims gatesEx 2 (by decide) (by decide)
      ⟨[4, 2], [10, 11, 20, 21, 30, 31, 40, 41]⟩ 2 [] (by decide) (by decide)⟩

/-- Counterexample for C1 as stated: on the scenario gate matrix, a rank-1
input tensor of leading dimension `B = 4` makes `dispatch` fail (the
`squeeze(1)` raises a dimension-out-of-range error on the gathered rank-1
tensor), so no sequence of `E` chunks is returned. -/
theorem dispatch_contract_cex :
    (SparseDispatcher.init 2 gatesEx).dispatch ⟨[4], [10, 20, 30, 40]⟩ = none := by
  decide

/-- C1 (amended): for every input of leading dimension `B` with at least one
feature dimension, `dispatch` returns exactly `E` chunks in increasing
expert-id order; chunk `e` has leading dimension `part_sizes[e]`, its flat
data is the concatenation of the rows `x[i]` of the samples routed to
expert `e` in ascending sample order (duplicating multiply-routed samples
across chunks), and its `j`-th row is the row of the `j`-th routed
sample. -/
theorem dispatch_contract (G : List (List ℚ)) (E : ℕ) (hrect : rectangular E G)
    (hnn : nonnegGates G) (x : Tensor) (fs : List ℕ)
    (hshape : x.shape = G.length :: fs) (hwf : x.wf) (hfs : fs ≠ []) :
    (SparseDispatcher.init E G).dispatch x ≠ none ∧
    (((SparseDispatcher.init E G).dispatch x).getD []).length = E ∧
    ∀ e < E,
      ((((SparseDispatcher.init E G).dispatch x).getD []).getD e default).shape.headI =
        (SparseDispatcher.init E G).part_sizes.getD e 0 ∧
      ((((SparseDispatcher.init E G).dispatch x).getD []).getD e default).data =
        ((routedTo G e).map x.row).flatten ∧
      ∀ j < (routedTo G e).length,
        ((((SparseDispatcher.init E G).dispatch x).getD []).getD e default).row j =
          x.row ((routedTo G e).getD j 0) := by
  have hd := dispatch_spec G E hrect hnn x fs hshape hwf hfs
  rw [hd, Option.getD_some]
  refine ⟨by simp, by rw [List.length_map, List.length_range], ?_⟩
  intro e he
  rw [getD_map_of_lt (fun e2 => (⟨(routedTo G e2).length :: squeezeTail fs,
      ((routedTo G e2).map x.row).flatten⟩ : Tensor)) _ e (by simpa using he) 0,
    getD_range_of_lt he]
  refine ⟨?_, rfl, ?_⟩
  · rw [init_part_sizes G E,
      getD_map_of_lt (fun e2 => (routedTo G e2).length) _ e (by simpa using he) 0 0,
      getD_range_of_lt he]
    rfl
  · intro j hj
    have hrows : ∀ r ∈ (routedTo G e).map x.row, r.length = fs.prod := by
      intro r hr
      rw [List.mem_map] at hr
      obtain ⟨i, hi, rfl⟩ := hr
      exact row_length hshape hwf (mem_routedTo.mp hi).1
    have hrow : (⟨(routedTo G e).length :: squeezeTail fs,
        ((routedTo G e).map x.row).flatten⟩ : Tensor).row j =
        ((((routedTo G e).map x.row).flatten).drop (j * fs.prod)).take fs.prod := by
      unfold Tensor.row
      rw [Tensor.rowNumel]
      have : (((routedTo G e).length :: squeezeTail fs : List ℕ)).tail.prod = fs.prod := by
        rw [List.tail_cons]
        exact squeezeTail_prod fs
      rw [this]
    rw [hrow, flatten_drop_take fs.prod _ j hrows (by rw [List.length_map]; exact hj),
      getD_map_of_lt x.row _ j hj 0]

/-- Witness for the amended C1 at the spec scenario with a `[4, 2]` input:
expert 0's chunk stacks the rows of samples 0 and 2, expert 1's the rows of
samples 1 and 2. -/
theorem dispatch_contract_witness :
    (rectangular 2 gatesEx ∧ nonnegGates gatesEx ∧
      (⟨[4, 2], [10, 11, 20, 21, 30, 31, 40, 41]⟩ : Tensor).wf ∧
      (SparseDispatcher.init 2 gatesEx).dispatch ⟨[4, 2], [10, 11, 20, 21, 30, 31, 40, 41]⟩ =
        some [⟨[2, 2], [10, 11, 30, 31]⟩, ⟨[2, 2], [20, 21, 30, 31]⟩]) ∧
    ((SparseDispatcher.init 2 gatesEx).dispatch
      ⟨[4, 2], [10, 11, 20, 21, 30, 31, 40, 41]⟩ ≠ none ∧
    (((SparseDispatcher.init 2 gatesEx).dispatch
      ⟨[4, 2], [10, 11, 20, 21, 30, 31, 40, 41]⟩).getD []).length = 2 ∧
    ∀ e < 2,
      ((((SparseDispatcher.init 2 gatesEx).dispatch
        ⟨[4, 2], [10, 11, 20, 21, 30, 31, 40, 41]⟩).getD []).getD e default).shape.headI =
        (SparseDispatcher.init 2 gatesEx).part_sizes.getD e 0 ∧
      ((((SparseDispatcher.init 2 gatesEx).dispatch
        ⟨[4, 2], [10, 11, 20, 21, 30, 31, 40, 41]⟩).getD []).getD e default).data =
        ((routedTo gatesEx e).map (⟨[4, 2],
          [10, 11, 20, 21, 30, 31, 40, 41]⟩ : Tensor).row).flatten ∧
      ∀ j < (routedTo gatesEx e).length,
        ((((SparseDispatcher.init 2 gatesEx).dispatch
          ⟨[4, 2], [10, 11, 20, 21, 30, 31, 40, 41]⟩).getD []).getD e default).row j =
          (⟨[4, 2], [10, 11, 20, 21, 30, 31, 40, 41]⟩ : Tensor).row
            ((routedTo gatesEx e).getD j 0)) := by
  exact ⟨⟨by decide, by decide, by decide, by decide⟩,
    dispatch_contract gatesEx 2 (by decide) (by decide)
      ⟨[4, 2], [10, 11, 20, 21, 30, 31, 40, 41]⟩ (2 :: []) (by decide) (by decide) (by decide)⟩

/-- C8: an expert `e0` with `part_sizes[e0] = 0` still gets a chunk at its
position (leading dimension 0, not skipped) from `dispatch`, `combine` over
well-shaped outputs including that empty chunk succeeds, and expert `e0`
belongs to no sample's accumulation set — every output entry is the mixture
over `expertsOf`, which never contains `e0`. -/
theorem zero_expert_tolerated (fexp flog : ℚ → ℚ) (G : List (List ℚ)) (E s1 s2 s3 : ℕ)
    (outs : List Tensor) (x : Tensor) (fs : List ℕ) (e0 : ℕ)
    (hE : 0 < E) (hrect : rectangular E G) (hnn : nonnegGates G)
    (hws : wellShaped G E s1 s2 s3 outs)
    (hshape : x.shape = G.length :: fs) (hwf : x.wf) (hfs : fs ≠ [])
    (he0 : e0 < E) (hz : (SparseDispatcher.init E G).part_sizes.getD e0 0 = 0) :
    (SparseDispatcher.init E G).dispatch x ≠ none ∧
    (((SparseDispatcher.init E G).dispatch x).getD []).length = E ∧
    ((((SparseDispatcher.init E G).dispatch x).getD []).getD e0 default).shape.headI = 0 ∧
    SparseDispatcher.combine fexp flog (SparseDispatcher.init E G) outs true ≠ none ∧
    (∀ i < G.length, e0 ∉ expertsOf G E i) ∧
    ∀ i < G.length, ∀ p < ([s1, s2, s3] : List ℕ).prod,
      ((SparseDispatcher.combine fexp flog (SparseDispatcher.init E G) outs true).getD
        default).entry i p =
        flog (if mixSum fexp G E outs i p = 0 then npFinfoFloatEps
          else mixSum fexp G E outs i p) := by
  have hlen0 : (routedTo G e0).length = 0 := by
    rw [init_part_sizes G E,
      getD_map_of_lt (fun e2 => (routedTo G e2).length) _ e0 (by simpa using he0) 0 0,
      getD_range_of_lt he0] at hz
    exact hz
  have hd := dispatch_spec G E hrect hnn x fs hshape hwf hfs
  have hcf := combine_formula fexp flog G E s1 s2 s3 outs hE hrect hnn hws
  refine ⟨by rw [hd]; simp, ?_, ?_, by rw [hcf]; simp, ?_, ?_⟩
  · rw [hd, Option.getD_some, List.length_map, List.length_range]
  · rw [hd, Option.getD_some,
      getD_map_of_lt (fun e2 => (⟨(routedTo G e2).length :: squeezeTail fs,
        ((routedTo G e2).map x.row).flatten⟩ : Tensor)) _ e0 (by simpa using he0) 0,
      getD_range_of_lt he0]
    show (routedTo G e0).length = 0
    exact hlen0
  · intro i hi hmem
    obtain ⟨_, hg⟩ := mem_expertsOf.mp hmem
    have : i ∈ routedTo G e0 := mem_routedTo.mpr ⟨hi, hg⟩
    rw [List.length_eq_zero.mp hlen0] at this
    cases this
  · intro i hi p hp
    rw [hcf, Option.getD_some]
    exact combineRes_entry fexp flog G E s1 s2 s3 outs hws i hi p hp

/-- Witness for C8 on `gatesZ`: expert 1 has no samples, dispatch still
produces an aligned empty chunk, and combine succeeds. -/
theorem zero_expert_tolerated_witness :
    ((0:ℕ) < 2 ∧ rectangular 2 gatesZ ∧ nonnegGates gatesZ ∧
      wellShaped gatesZ 2 1 1 1 outsZ ∧
      (⟨[2, 2], [10, 11, 20, 21]⟩ : Tensor).wf ∧ (1:ℕ) < 2 ∧
      (SparseDispatcher.init 2 gatesZ).part_sizes.getD 1 0 = 0) ∧
    ((SparseDispatcher.init 2 gatesZ).dispatch ⟨[2, 2], [10, 11, 20, 21]⟩ ≠ none ∧
    (((SparseDispatcher.init 2 gatesZ).dispatch ⟨[2, 2], [10, 11, 20, 21]⟩).getD
      []).length = 2 ∧
    ((((SparseDispatcher.init 2 gatesZ).dispatch ⟨[2, 2], [10, 11, 20, 21]⟩).getD
      []).getD 1 default).shape.headI = 0 ∧
    SparseDispatcher.combine (fun _ => (1:ℚ)) id (SparseDispatcher.init 2 gatesZ) outsZ
      true ≠ none ∧
    (∀ i < gatesZ.length, 1 ∉ expertsOf gatesZ 2 i) ∧
    ∀ i < gatesZ.length, ∀ p < ([1, 1, 1] : List ℕ).prod,
      ((SparseDispatcher.combine (fun _ => (1:ℚ)) id (SparseDispatcher.init 2 gatesZ)
        outsZ true).getD default).entry i p =
        id (if mixSum (fun _ => (1:ℚ)) gatesZ 2 outsZ i p = 0 then npFinfoFloatEps
          else mixSum (fun _ => (1:ℚ)) gatesZ 2 outsZ i p)) := by
  exact ⟨⟨by decide, by decide, by decide, by decide, by decide, by decide, by decide⟩,
    zero_expert_tolerated (fun _ => 1) id gatesZ 2 1 1 1 outsZ
      ⟨[2, 2], [10, 11, 20, 21]⟩ (2 :: []) 1 (by decide) (by decide) (by decide) (by decide)
      (by decide) (by decide) (by decide) (by decide) (by decide)⟩

theorem step_eq (d : SparseDispatcher) (c : DispatcherCall) : d.step c = d := by
  cases c <;> rfl

/-- C9: the derived state computed at construction — the stored gates,
`batch_index`, `part_sizes` and `nonzero_gates` — is unchanged by every
sequence of `dispatch`, `combine` and `expert_to_gates` calls: the method
bodies perform no assignment to any `self` field, so in the state-passing
embedding the post-state of each call equals its pre-state. -/
theorem dispatcher_state_immutable (E : ℕ) (G : List (List ℚ)) (cs : List DispatcherCall) :
    ((SparseDispatcher.init E G).runCalls cs).gates = (SparseDispatcher.init E G).gates ∧
    ((SparseDispatcher.init E G).runCalls cs).batch_index =
      (SparseDispatcher.init E G).batch_index ∧
    ((SparseDispatcher.init E G).runCalls cs).part_sizes =
      (SparseDispatcher.init E G).part_sizes ∧
    ((SparseDispatcher.init E G).runCalls cs).nonzero_gates =
      (SparseDispatcher.init E G).nonzero_gates := by
  have h : ∀ d : SparseDispatcher, d.runCalls cs = d := by
    intro d
    induction cs generalizing d with
    | nil => rfl
    | cons c cs2 ih =>
      rw [SparseDispatcher.runCalls, List.foldl_cons, step_eq]
      exact ih d
  rw [h]
  exact ⟨rfl, rfl, rfl, rfl⟩

theorem einsumScale_none_of_rank (a b : Tensor) (h : a.shape.length ≠ 4) :
    einsumScale a b = none := by
  have hnc : ¬ (a.shape.length = 4 ∧ b.shape = [a.shape.headI, 1]) := fun hcc => h hcc.1
  rw [einsumScale, if_neg hnc]

theorem indexAdd0_none_of_tail_length (base : Tensor) (idx : List ℕ) (src : Tensor)
    (h : src.shape.tail.length ≠ base.shape.tail.length) :
    Tensor.indexAdd0 base idx src = none := by
  have hnc : ¬ (src.shape.tail = base.shape.tail ∧ idx.length = src.shape.headI ∧
      ∀ i ∈ idx, i < base.shape.headI) := fun hcc => h (congrArg List.length hcc.1)
  rw [Tensor.indexAdd0, if_neg hnc]

/-- C10: `combine` is only defined for rank-4 expert outputs.  For any
non-empty output sequence whose tensors all have rank `r ≠ 4`, the combine
computation fails (returns `none`) for either value of `multiply_by_gates`:
the four-subscript einsum rejects any other rank, the accumulator shape
reads dimensions 1–3 of `expert_out[-1]`, and the scatter-accumulate
rejects a source whose trailing shape does not match the rank-4
accumulator. -/
theorem combine_requires_rank4 (fexp flog : ℚ → ℚ) (d : SparseDispatcher)
    (outs : List Tensor) (r : ℕ) (hne : outs ≠ [])
    (hr : ∀ t ∈ outs, t.shape.length = r) (hr4 : r ≠ 4) (m : Bool) :
    SparseDispatcher.combine fexp flog d outs m = none := by
  rcases outs with _ | ⟨t, rest⟩
  · exact absurd rfl hne
  by_cases hcond : ∀ u ∈ t :: rest, u.shape ≠ [] ∧ u.shape.tail = t.shape.tail
  · have hc : cat0 (t :: rest) =
        some ⟨((t :: rest).map fun u => u.shape.headI).sum :: t.shape.tail,
          ((t :: rest).map Tensor.data).flatten⟩ := by
      rw [cat0, if_pos hcond]
    have htr : t.shape.length = r := hr t (List.mem_cons_self t rest)
    have htne : t.shape ≠ [] := (hcond t (List.mem_cons_self t rest)).1
    have hr1 : 1 ≤ r := by
      rcases hs : t.shape with _ | ⟨a, b⟩
      · exact absurd hs htne
      · rw [hs] at htr
        simp at htr
        omega
    have htail : t.shape.tail.length = r - 1 := by
      rw [List.length_tail, htr]
    have hlast : (t :: rest).getLast? = some ((t :: rest).getD ((t :: rest).length - 1) default) :=
      getLast?_eq_getD (t :: rest) (by simp)
    have hlastmem : (t :: rest).getD ((t :: rest).length - 1) default ∈ t :: rest :=
      mem_getD_of_lt _ _ (by simp) default
    have hlastr : ((t :: rest).getD ((t :: rest).length - 1) default).shape.length = r :=
      hr _ hlastmem
    unfold SparseDispatcher.combine
    cases m with
    | true =>
      have hein := einsumScale_none_of_rank
        ((⟨((t :: rest).map fun u => u.shape.headI).sum :: t.shape.tail,
          ((t :: rest).map Tensor.data).flatten⟩ : Tensor).emap fexp) d.nonzero_gates
        (by
          show ((((t :: rest).map fun u => u.shape.headI).sum :: t.shape.tail) : List ℕ).length ≠ 4
          rw [List.length_cons, htail]
          omega)
      simp only [hc, hein, if_true]
    | false =>
      simp only [hc, hlast, Bool.false_eq_true, if_true, if_false]
      by_cases hlt : ((t :: rest).getD ((t :: rest).length - 1) default).shape.length < 4
      · simp only [if_pos hlt]
      · rw [if_neg hlt]
        have hge : 5 ≤ r := by
          rw [hlastr] at hlt
          omega
        have hadd := indexAdd0_none_of_tail_length
          ⟨[d.gates.length,
            ((t :: rest).getD ((t :: rest).length - 1) default).shape.getD 1 0,
            ((t :: rest).getD ((t :: rest).length - 1) default).shape.getD 2 0,
            ((t :: rest).getD ((t :: rest).length - 1) default).shape.getD 3 0],
            List.replicate ([d.gates.length,
              ((t :: rest).getD ((t :: rest).length - 1) default).shape.getD 1 0,
              ((t :: rest).getD ((t :: rest).length - 1) default).shape.getD 2 0,
              ((t :: rest).getD ((t :: rest).length - 1) default).shape.getD 3 0] : List ℕ).prod 0⟩
          d.batch_index
          ((⟨((t :: rest).map fun u => u.shape.headI).sum :: t.shape.tail,
            ((t :: rest).map Tensor.data).flatten⟩ : Tensor).emap fexp)
          (by
            show ((((t :: rest).map fun u => u.shape.headI).sum :: t.shape.tail) : List ℕ).tail.length ≠
              (([d.gates.length,
                ((t :: rest).getD ((t :: rest).length - 1) default).shape.getD 1 0,
                ((t :: rest).getD ((t :: rest).length - 1) default).shape.getD 2 0,
                ((t :: rest).getD ((t :: rest).length - 1) default).shape.getD 3 0] : List ℕ)).tail.length
            rw [List.tail_cons, htail]
            show r - 1 ≠ 3
            omega)
        simp only [hadd]
  · have hc : cat0 (t :: rest) = none := by
      rw [cat0, if_neg hcond]
    unfold SparseDispatcher.combine
    simp only [hc]

/-- Witness for C10: on the scenario dispatcher, rank-3 expert outputs make
`combine` fail for both values of `multiply_by_gates`. -/
theorem combine_requires_rank4_witness :
    (([⟨[2, 1, 1], [5, 6]⟩, ⟨[2, 1, 1], [7, 8]⟩] : List Tensor) ≠ [] ∧
      (∀ t ∈ ([⟨[2, 1, 1], [5, 6]⟩, ⟨[2, 1, 1], [7, 8]⟩] : List Tensor),
        t.shape.length = 3) ∧ (3:ℕ) ≠ 4) ∧
    SparseDispatcher.combine (fun _ => (1:ℚ)) id (SparseDispatcher.init 2 gatesEx)
      [⟨[2, 1, 1], [5, 6]⟩, ⟨[2, 1, 1], [7, 8]⟩] true = none ∧
    SparseDispatcher.combine (fun _ => (1:ℚ)) id (SparseDispatcher.init 2 gatesEx)
      [⟨[2, 1, 1], [5, 6]⟩, ⟨[2, 1, 1], [7, 8]⟩] false = none := by
  exact ⟨⟨by decide, by decide, by decide⟩,
    combine_requires_rank4 (fun _ => 1) id (SparseDispatcher.init 2 gatesEx)
      [⟨[2, 1, 1], [5, 6]⟩, ⟨[2, 1, 1], [7, 8]⟩] 3 (by decide) (by decide) (by decide) true,
    combine_requires_rank4 (fun _ => 1) id (SparseDispatcher.init 2 gatesEx)
      [⟨[2, 1, 1], [5, 6]⟩, ⟨[2, 1, 1], [7, 8]⟩] 3 (by decide) (by decide) (by decide) false⟩
